import Mathlib

/-!
# Huffman file compressor

A shallow embedding of the two programs of the repository and a verification of
their specification.

* `compressor.cpp` (the file pipeline): `buildHuffmanTree`, `generateCodes`,
  `encodeText`, `padEncodedText`, `getByteArray`, `compressFile`, `removePadding`,
  `decodeText`, `decompressFile`, `main`.  Its definitions live in the namespace
  `Huffman`.
* `file_compressor.cpp` (the interactive demo): `encode`, `decode`,
  `buildHuffmanTree`.  Its definitions live in the namespace `Huffman.Demo`.

Modelling conventions

* A `char` is a byte, `Fin 256`; the character `\0` is `0`.
* A `Node*` is a value of the inductive type `Node`: `Node.null` is `nullptr`,
  `Node.mk ch freq left right` is a pointer to a node with these four fields.
* A `std::string` of `0`/`1` characters is a `List Bool` (`false` is the
  character `0`, `true` is the character `1`).
* `int freq` is a natural number: the counts of a text shorter than `2^31` bytes.
* A step that throws or has undefined behaviour returns `Except.error`.
* The two parts of the C++ standard library whose observable behaviour the language
  leaves open are parameters: the iteration order of `std::unordered_map`
  (`MapOrder`) and the way `std::priority_queue` arranges elements of equal
  priority (`PriorityQueue`).
-/

namespace Huffman

/-- A `char`. -/
abbrev Byte := Fin 256

/-- A `Node*`: the null pointer, or a pointer to a `struct Node` with the fields
`ch`, `freq`, `left` and `right`. -/
inductive Node where
  | null : Node
  | mk (ch : Byte) (freq : Nat) (left right : Node) : Node
deriving DecidableEq, Repr

namespace Node

/-- The field `ch` (`0` for the null pointer, which the programs never read). -/
def ch : Node → Byte
  | null => 0
  | mk c _ _ _ => c

/-- The field `freq` (`0` for the null pointer, which the programs never read). -/
def freq : Node → Nat
  | null => 0
  | mk _ f _ _ => f

/-- The test `!node`. -/
def isNull : Node → Bool
  | null => true
  | mk _ _ _ _ => false

/-- The test `!node->left && !node->right` on a non-null node. -/
def isLeaf : Node → Bool
  | null => false
  | mk _ _ l r => l.isNull && r.isNull

end Node

/-- The ways a step of the programs can go wrong. -/
inductive Fault where
  /-- `top()` or `pop()` of an empty `std::priority_queue` (undefined behaviour). -/
  | emptyQueue
  /-- A field of the null pointer is read (undefined behaviour). -/
  | nullDeref
  /-- `std::out_of_range` thrown by `unordered_map::at` or `string::substr`, or a
  string indexed past its end. -/
  | outOfRange
  /-- A loop that does not terminate. -/
  | diverges
deriving DecidableEq, Repr

/-- The comparison object `Compare` (`compare` in the demo):
`left->freq > right->freq`. -/
def Compare (l r : Node) : Bool := decide (r.freq < l.freq)

/-- A `std::priority_queue<Node*, vector<Node*>, Compare>`.  The state of the queue
is the content of its underlying vector.  The C++ standard fixes the behaviour of
`push`, `top` and `pop` only up to the arrangement of the vector: after each
operation the vector is a heap with respect to `Compare` (`inv`), `push` adds the
element, `pop` removes the element `top` returns, and no element is ordered before
`top` by `Compare`.  Every implementation with these properties is a value of this
structure. -/
structure PriorityQueue where
  /-- The vector after `push(x)`. -/
  push : List Node → Node → List Node
  /-- The result of `top()` on a non-empty queue. -/
  top : List Node → Node
  /-- The vector after `pop()` on a non-empty queue. -/
  pop : List Node → List Node
  /-- The representation invariant of the vector. -/
  inv : List Node → Prop
  inv_nil : inv []
  inv_push : ∀ q x, inv q → inv (push q x)
  perm_push : ∀ q x, inv q → (push q x).Perm (x :: q)
  inv_pop : ∀ q, inv q → q ≠ [] → inv (pop q)
  perm_pop : ∀ q, inv q → q ≠ [] → (top q :: pop q).Perm q
  top_min : ∀ q, inv q → ∀ y ∈ q, Compare (top q) y = false

/-- The iteration order of a `std::unordered_map<char, int>`: some enumeration of
its entries.  `enum` receives the entries in the order of their insertion. -/
structure MapOrder where
  enum : List (Byte × Nat) → List (Byte × Nat)
  perm : ∀ m, (enum m).Perm m

/-- The statement `freq_map[ch]++` on a map given by its entries in insertion
order. -/
def incr (ch : Byte) : List (Byte × Nat) → List (Byte × Nat)
  | [] => [(ch, 1)]
  | (c, n) :: m => if c = ch then (c, n + 1) :: m else (c, n) :: incr ch m

/-- The map `freq_map` after the loop `for (char ch : text) freq_map[ch]++`. -/
def freq_map (text : List Byte) : List (Byte × Nat) :=
  text.foldl (fun m ch => incr ch m) []

/-- The queue after the loop that pushes `new Node(pair.first, pair.second)` for
every entry of the map, in iteration order. -/
def pushLeaves (pq : PriorityQueue) (entries : List (Byte × Nat)) : List Node :=
  entries.foldl (fun q e => pq.push q (Node.mk e.1 e.2 Node.null Node.null)) []

/-- One iteration of the merge loop: pop `left`, pop `right`, push the merged
node. -/
def mergeStep (pq : PriorityQueue) (q : List Node) : Except Fault (List Node) :=
  if q.isEmpty then Except.error Fault.emptyQueue
  else
    let left := pq.top q
    let q1 := pq.pop q
    if q1.isEmpty then Except.error Fault.emptyQueue
    else
      let right := pq.top q1
      let q2 := pq.pop q1
      Except.ok (pq.push q2 (Node.mk 0 (left.freq + right.freq) left right))

/-- The loop `while (pq.size() > 1) { ... }`, run for at most `fuel` iterations. -/
def mergeLoop (pq : PriorityQueue) : Nat → List Node → Except Fault (List Node)
  | 0, q => if 1 < q.length then Except.error Fault.diverges else Except.ok q
  | fuel + 1, q =>
    if 1 < q.length then
      match mergeStep pq q with
      | Except.error e => Except.error e
      | Except.ok q3 => mergeLoop pq fuel q3
    else Except.ok q

/-- The function `buildHuffmanTree` of `compressor.cpp`. -/
def buildHuffmanTree (pq : PriorityQueue) (o : MapOrder) (text : List Byte) :
    Except Fault Node :=
  let q0 := pushLeaves pq (o.enum (freq_map text))
  match mergeLoop pq q0.length q0 with
  | Except.error e => Except.error e
  | Except.ok q => if q.isEmpty then Except.error Fault.emptyQueue else Except.ok (pq.top q)

/-- An `unordered_map<char, string>`. -/
abbrev CodeMap := Byte → Option (List Bool)

/-- The empty map. -/
def CodeMap.empty : CodeMap := fun _ => none

/-- The assignment `code_map[ch] = code`. -/
def CodeMap.insert (m : CodeMap) (ch : Byte) (code : List Bool) : CodeMap :=
  fun c => if c = ch then some code else m c

/-- The function `generateCodes` of `compressor.cpp`: a node whose `ch` is not
`\0` records the accumulated string, any other node passes on to its children. -/
def generateCodes : Node → List Bool → CodeMap → CodeMap
  | Node.null, _, code_map => code_map
  | Node.mk ch _ left right, pfx, code_map =>
    if ch ≠ 0 then code_map.insert ch pfx
    else generateCodes right (pfx ++ [true]) (generateCodes left (pfx ++ [false]) code_map)

/-- The function `encodeText`: `code_map.at(ch)` throws for a missing key. -/
def encodeText : List Byte → CodeMap → Except Fault (List Bool)
  | [], _ => Except.ok []
  | ch :: text, code_map =>
    match code_map ch with
    | none => Except.error Fault.outOfRange
    | some code =>
      match encodeText text code_map with
      | Except.error e => Except.error e
      | Except.ok rest => Except.ok (code ++ rest)

/-- The value `bitset<8>(s).to_ulong()` of a string of `0`/`1` characters, first
character most significant. -/
def bitsToNat (s : List Bool) : Nat :=
  s.foldl (fun acc b => 2 * acc + b.toNat) 0

/-- The `width` low bits of `n`, most significant first. -/
def toBits : Nat → Nat → List Bool
  | 0, _ => []
  | w + 1, n => decide (n / 2 ^ w % 2 = 1) :: toBits w n

/-- The string `bitset<8>(n).to_string()`. -/
def bitset8 (n : Nat) : List Bool := toBits 8 n

/-- The local `extra_padding` of `padEncodedText`. -/
def extraPadding (encoded_text : List Bool) : Nat := 8 - encoded_text.length % 8

/-- The function `padEncodedText`. -/
def padEncodedText (encoded_text : List Bool) : List Bool :=
  let extra_padding := extraPadding encoded_text
  let padded_info := bitset8 extra_padding
  padded_info ++ encoded_text ++ List.replicate extra_padding false

/-- The function `getByteArray`: one byte for every `i = 0, 8, 16, ...` below the
size, the value of `substr(i, 8)`. -/
def getByteArray (padded_encoded_text : List Bool) : List Nat :=
  (List.range ((padded_encoded_text.length + 7) / 8)).map
    (fun k => bitsToNat ((padded_encoded_text.drop (8 * k)).take 8) % 256)

/-- The function `compressFile`, from the content of the input file to the bytes
written to the output file. -/
def compressFile (pq : PriorityQueue) (o : MapOrder) (text : List Byte) :
    Except Fault (List Nat) :=
  match buildHuffmanTree pq o text with
  | Except.error e => Except.error e
  | Except.ok huffman_tree =>
    match encodeText text (generateCodes huffman_tree [] CodeMap.empty) with
    | Except.error e => Except.error e
    | Except.ok encoded_text => Except.ok (getByteArray (padEncodedText encoded_text))

/-- The function `removePadding`.  `substr(8, n)` throws when the string is shorter
than 8 characters.  The count `n = size() - 8 - extra_padding` is computed in
`size_t`: when `8 + extra_padding` exceeds the size it wraps around to a value
above the size of any string, and `substr` takes the characters there are. -/
def removePadding (padded_encoded_text : List Bool) : Except Fault (List Bool) :=
  let padded_info := padded_encoded_text.take 8
  let extra_padding := bitsToNat padded_info
  if padded_encoded_text.length < 8 then Except.error Fault.outOfRange
  else if 8 + extra_padding ≤ padded_encoded_text.length then
    Except.ok ((padded_encoded_text.drop 8).take (padded_encoded_text.length - 8 - extra_padding))
  else Except.ok (padded_encoded_text.drop 8)

/-- The body of the loop of `decodeText` for one bit: the output so far and the
current node, before and after. -/
def decodeStep (huffman_tree : Node) (bit : Bool) (st : List Byte × Node) :
    Except Fault (List Byte × Node) :=
  match st.2 with
  | Node.null => Except.error Fault.nullDeref
  | Node.mk _ _ left right =>
    match (if bit then right else left) with
    | Node.null => Except.error Fault.nullDeref
    | Node.mk ch f l r =>
      if l.isNull && r.isNull then Except.ok (st.1 ++ [ch], huffman_tree)
      else Except.ok (st.1, Node.mk ch f l r)

/-- The loop of `decodeText` from a given state. -/
def decodeLoop (huffman_tree : Node) : List Bool → List Byte × Node →
    Except Fault (List Byte × Node)
  | [], st => Except.ok st
  | bit :: rest, st =>
    match decodeStep huffman_tree bit st with
    | Except.error e => Except.error e
    | Except.ok st1 => decodeLoop huffman_tree rest st1

/-- The function `decodeText`. -/
def decodeText (encoded_text : List Bool) (huffman_tree : Node) : Except Fault (List Byte) :=
  match decodeLoop huffman_tree encoded_text ([], huffman_tree) with
  | Except.error e => Except.error e
  | Except.ok st => Except.ok st.1

/-- The string `bit_string` of `decompressFile`: the 8 bits of every byte of the
file, most significant first. -/
def bitString (bytes : List Nat) : List Bool :=
  (bytes.map bitset8).flatten

/-- The function `decompressFile`, from the bytes of the input file and the tree to
the content written to the output file. -/
def decompressFile (bytes : List Nat) (huffman_tree : Node) : Except Fault (List Byte) :=
  match removePadding (bitString bytes) with
  | Except.error e => Except.error e
  | Except.ok encoded_text => decodeText encoded_text huffman_tree

/-- The function `main` of `compressor.cpp`, from the content of `input.txt` to the
content of `output.txt`: compress, build the tree again from the input, decompress
with it. -/
def main (pq : PriorityQueue) (o : MapOrder) (text : List Byte) : Except Fault (List Byte) :=
  match compressFile pq o text with
  | Except.error e => Except.error e
  | Except.ok compressed =>
    match buildHuffmanTree pq o text with
    | Except.error e => Except.error e
    | Except.ok huffman_tree => decompressFile compressed huffman_tree

/-! ## The demo `file_compressor.cpp` -/

namespace Demo

/-- The function `encode`: a node without children records the accumulated string;
the traversal goes on into both children of every node. -/
def encode : Node → List Bool → CodeMap → CodeMap
  | Node.null, _, huffmanCode => huffmanCode
  | Node.mk ch _ left right, str, huffmanCode =>
    encode right (str ++ [true])
      (encode left (str ++ [false])
        (if left.isNull && right.isNull then huffmanCode.insert ch str else huffmanCode))

/-- The test `str[index] == '0'`.  `str[str.size()]` is the character `\0`; an
index beyond that is out of range. -/
def isZeroAt (str : List Bool) (index : Int) : Except Fault Bool :=
  if index < 0 then Except.error Fault.outOfRange
  else
    match str.get? index.toNat with
    | some b => Except.ok (!b)
    | none => if index.toNat = str.length then Except.ok false
              else Except.error Fault.outOfRange

/-- The function `decode`: the value of `index` on return and the characters
printed. -/
def decode : Node → Int → List Bool → Except Fault (Int × List Byte)
  | Node.null, index, _ => Except.ok (index, [])
  | Node.mk ch _ left right, index, str =>
    if left.isNull && right.isNull then Except.ok (index, [ch])
    else
      match isZeroAt str (index + 1) with
      | Except.error e => Except.error e
      | Except.ok true => decode left (index + 1) str
      | Except.ok false => decode right (index + 1) str

/-- The loop `while (index < (int)str.size() - 2) decode(root, index, str);`, run
for at most `fuel` iterations: the characters printed. -/
def decodeLoop (root : Node) (str : List Bool) : Nat → Int → Except Fault (List Byte)
  | 0, index =>
    if index < (str.length : Int) - 2 then Except.error Fault.diverges else Except.ok []
  | fuel + 1, index =>
    if index < (str.length : Int) - 2 then
      match decode root index str with
      | Except.error e => Except.error e
      | Except.ok (index1, out) =>
        match decodeLoop root str fuel index1 with
        | Except.error e => Except.error e
        | Except.ok rest => Except.ok (out ++ rest)
    else Except.ok []

/-- The loop `while (pq.size() != 1) { ... }`, run for at most `fuel` iterations. -/
def mergeLoop (pq : PriorityQueue) : Nat → List Node → Except Fault (List Node)
  | 0, q => if q.length ≠ 1 then Except.error Fault.diverges else Except.ok q
  | fuel + 1, q =>
    if q.length ≠ 1 then
      match mergeStep pq q with
      | Except.error e => Except.error e
      | Except.ok q3 => mergeLoop pq fuel q3
    else Except.ok q

/-- The first part of `buildHuffmanTree` of the demo, up to `Node* root = pq.top()`. -/
def huffmanTree (pq : PriorityQueue) (o : MapOrder) (text : List Byte) : Except Fault Node :=
  let q0 := pushLeaves pq (o.enum (freq_map text))
  match mergeLoop pq (q0.length + 1) q0 with
  | Except.error e => Except.error e
  | Except.ok q => if q.isEmpty then Except.error Fault.emptyQueue else Except.ok (pq.top q)

/-- The string `str` of the demo: `str += huffmanCode[ch]` for every character
(`operator[]` gives the empty string for a missing key). -/
def encodedString (text : List Byte) (huffmanCode : CodeMap) : List Bool :=
  (text.map (fun ch => (huffmanCode ch).getD [])).flatten

/-- The function `buildHuffmanTree` of the demo: the encoded string and the decoded
string it prints. -/
def buildHuffmanTree (pq : PriorityQueue) (o : MapOrder) (text : List Byte) :
    Except Fault (List Bool × List Byte) :=
  match huffmanTree pq o text with
  | Except.error e => Except.error e
  | Except.ok root =>
    let str := encodedString text (encode root [] CodeMap.empty)
    match decodeLoop root str (str.length + 1) (-1) with
    | Except.error e => Except.error e
    | Except.ok decoded => Except.ok (str, decoded)

end Demo

/-! ## A reference priority queue and two iteration orders -/

/-- Insertion into a vector sorted by increasing `freq`, behind the elements that
`Compare` does not order after `x`. -/
def insertSorted (x : Node) : List Node → List Node
  | [] => [x]
  | y :: q => if Compare y x then x :: y :: q else y :: insertSorted x q

theorem insertSorted_perm (x : Node) (q : List Node) : (insertSorted x q).Perm (x :: q) := by
  induction q with
  | nil => exact List.Perm.refl _
  | cons y q ih =>
    unfold insertSorted
    split
    · exact List.Perm.refl _
    · exact (List.Perm.cons y ih).trans (List.Perm.swap x y q)

theorem insertSorted_sorted (x : Node) (q : List Node)
    (h : q.Pairwise (fun a b => a.freq ≤ b.freq)) :
    (insertSorted x q).Pairwise (fun a b => a.freq ≤ b.freq) := by
  induction q with
  | nil => simp [insertSorted]
  | cons y q ih =>
    have hy := List.pairwise_cons.1 h
    unfold insertSorted
    split
    · rename_i hc
      have hxy : x.freq < y.freq := by simpa [Compare] using hc
      refine List.pairwise_cons.2 ⟨?_, h⟩
      intro z hz
      rcases List.mem_cons.1 hz with rfl | hz
      · exact Nat.le_of_lt hxy
      · exact Nat.le_trans (Nat.le_of_lt hxy) (hy.1 z hz)
    · rename_i hc
      have hyx : y.freq ≤ x.freq := by simpa [Compare] using hc
      refine List.pairwise_cons.2 ⟨?_, ih hy.2⟩
      intro z hz
      rcases List.mem_cons.1 ((insertSorted_perm x q).subset hz) with rfl | hz
      · exact hyx
      · exact hy.1 z hz

/-- A reference implementation of the queue: the vector is kept sorted by
increasing `freq` (a sorted vector is a heap), elements of equal `freq` leave in
the order they entered. -/
def sortedQueue : PriorityQueue where
  push q x := insertSorted x q
  top q := q.headD Node.null
  pop q := q.tail
  inv q := q.Pairwise (fun a b => a.freq ≤ b.freq)
  inv_nil := List.Pairwise.nil
  inv_push q x h := insertSorted_sorted x q h
  perm_push q x _ := insertSorted_perm x q
  inv_pop q h _ := by
    cases q with
    | nil => exact List.Pairwise.nil
    | cons y q => exact (List.pairwise_cons.1 h).2
  perm_pop q _ hne := by
    cases q with
    | nil => exact absurd rfl hne
    | cons y q => exact List.Perm.refl _
  top_min q h y hy := by
    cases q with
    | nil => cases hy
    | cons z q =>
      rcases List.mem_cons.1 hy with rfl | hy
      · simp [Compare]
      · have := (List.pairwise_cons.1 h).1 y hy
        simpa [Compare] using this

/-- The iteration order that lists the entries in the order of their insertion. -/
def insertionOrder : MapOrder where
  enum m := m
  perm m := List.Perm.refl m

/-- The new node `new Node(pair.first, pair.second)` for an entry of the frequency
map. -/
def leafNode (e : Byte × Nat) : Node := Node.mk e.1 e.2 Node.null Node.null

/-- The count a map given by its entries holds for `c` (`0` without an entry). -/
def countOf (m : List (Byte × Nat)) (c : Byte) : Nat :=
  match m with
  | [] => 0
  | (k, n) :: m => if k = c then n else countOf m c

namespace Node

/-- The leaves of a tree, the nodes without children, from left to right: the
`ch` and `freq` of each. -/
def leaves : Node → List (Byte × Nat)
  | null => []
  | mk c f l r => if l.isNull && r.isNull then [(c, f)] else leaves l ++ leaves r

/-- The node reached from `t` along a path (`false` is a step to `left`, `true` a
step to `right`); the null pointer when the path leaves the tree. -/
def walk : Node → List Bool → Node
  | t, [] => t
  | null, _ :: _ => null
  | mk _ _ l r, b :: p => walk (if b then r else l) p

/-- The trees the merge loop makes: a leaf as pushed for an entry of the frequency
map, or a merged node with `ch = 0`, the sum of the children's `freq`, and two
such trees as children. -/
inductive Huff : Node → Prop
  | leaf (c : Byte) (f : Nat) : Huff (mk c f null null)
  | node {l r : Node} : Huff l → Huff r → Huff (mk 0 (l.freq + r.freq) l r)

/-- The sum over the leaves of a tree of `freq` times depth, the root of the tree
standing at depth `d`. -/
def costAt : Nat → Node → Nat
  | _, null => 0
  | d, mk _ f l r =>
    if l.isNull && r.isNull then f * d else costAt (d + 1) l + costAt (d + 1) r

/-- The weighted path length of a tree: the sum over its leaves of `freq` times
depth. -/
def weightedPathLength (t : Node) : Nat := costAt 0 t

end Node

/-- The length of the code of a character in a code map (`0` without an entry). -/
def codeLength (m : CodeMap) (c : Byte) : Nat := ((m c).getD []).length

namespace Node

/-- Every node of the tree has either no child or both a left and a right child. -/
def isFull : Node → Bool
  | null => true
  | mk _ _ l r => (l.isNull == r.isNull) && isFull l && isFull r

/-- The number of nodes of a tree that have a child. -/
def internalCount : Node → Nat
  | null => 0
  | mk _ _ l r => if l.isNull && r.isNull then 0 else internalCount l + internalCount r + 1

/-- No node of the tree has a `freq` above `B`. -/
def freqLe (B : Nat) : Node → Bool
  | null => true
  | mk _ f l r => decide (f ≤ B) && freqLe B l && freqLe B r

/-- In every node of the tree that has a child, `freq` is the sum of the `freq` of
the two children. -/
def freqSums : Node → Bool
  | null => true
  | mk _ f l r =>
    if l.isNull && r.isNull then true
    else (f == l.freq + r.freq) && freqSums l && freqSums r

end Node

/-- The Kraft sum of a code table over the distinct characters of a text: the sum of
`2 ^ (-l)` over the lengths `l` of their codes (a character without a code adds
nothing). -/
def kraftSum (m : CodeMap) (text : List Byte) : ℚ :=
  (text.dedup.map (fun c =>
    match m c with
    | some code => (1 / 2 : ℚ) ^ code.length
    | none => 0)).sum

/-! # Properties -/

/-! ## The frequency map -/

theorem incr_keys (ch : Byte) (m : List (Byte × Nat)) :
    (incr ch m).map Prod.fst =
      if ch ∈ m.map Prod.fst then m.map Prod.fst else m.map Prod.fst ++ [ch] := by
  induction m with
  | nil => simp [incr]
  | cons e m ih =>
    obtain ⟨k, n⟩ := e
    by_cases hk : k = ch
    · simp [incr, hk]
    · have hk' : ¬ ch = k := fun h => hk h.symm
      by_cases hm : ch ∈ m.map Prod.fst
      · simp only [incr, hk, if_false, List.map_cons, ih, hm, if_true, List.mem_cons, or_true]
      · simp only [incr, hk, if_false, List.map_cons, ih, hm, List.mem_cons, hk', or_self,
          List.cons_append]

theorem incr_nodup (ch : Byte) (m : List (Byte × Nat)) (h : (m.map Prod.fst).Nodup) :
    ((incr ch m).map Prod.fst).Nodup := by
  rw [incr_keys]
  split
  · exact h
  · rename_i hm
    exact List.Nodup.append h (List.nodup_singleton ch) (by
      intro a ha hb
      rw [List.mem_singleton] at hb
      exact hm (hb ▸ ha))

theorem countOf_incr (ch c : Byte) (m : List (Byte × Nat)) :
    countOf (incr ch m) c = countOf m c + (if c = ch then 1 else 0) := by
  induction m with
  | nil =>
    by_cases h : c = ch
    · simp [incr, countOf, h]
    · have h' : ¬ ch = c := fun e => h e.symm
      simp [incr, countOf, h, h']
  | cons e m ih =>
    obtain ⟨k, n⟩ := e
    by_cases hk : k = ch
    · subst hk
      by_cases h : c = k
      · simp [incr, countOf, h]
      · have h' : ¬ k = c := fun e => h e.symm
        simp [incr, countOf, h, h']
    · by_cases h : k = c
      · subst h
        simp [incr, countOf, hk]
      · simp [incr, countOf, hk, h, ih]

theorem incr_pos (ch : Byte) (m : List (Byte × Nat)) (h : ∀ e ∈ m, 0 < e.2) :
    ∀ e ∈ incr ch m, 0 < e.2 := by
  induction m with
  | nil => intro e he; simp [incr] at he; subst he; exact Nat.one_pos
  | cons e0 m ih =>
    obtain ⟨k, n⟩ := e0
    intro e he
    by_cases hk : k = ch
    · simp only [incr, hk, if_true, List.mem_cons] at he
      rcases he with rfl | he
      · exact Nat.succ_pos _
      · exact h e (List.mem_cons_of_mem _ he)
    · simp only [incr, hk, if_false, List.mem_cons] at he
      rcases he with rfl | he
      · exact h _ (List.mem_cons_self _ _)
      · exact ih (fun e he => h e (List.mem_cons_of_mem _ he)) e he

theorem countOf_of_mem (m : List (Byte × Nat)) (h : (m.map Prod.fst).Nodup) (c : Byte) (n : Nat)
    (hm : (c, n) ∈ m) : countOf m c = n := by
  induction m with
  | nil => cases hm
  | cons e m ih =>
    obtain ⟨k, n0⟩ := e
    have hnd : k ∉ m.map Prod.fst ∧ (m.map Prod.fst).Nodup := List.nodup_cons.1 h
    rcases List.mem_cons.1 hm with he | he
    · cases he; simp [countOf]
    · have hk : k ≠ c := by
        intro hkc
        subst hkc
        exact hnd.1 (List.mem_map_of_mem Prod.fst he)
      simp only [countOf, hk, if_false]
      exact ih hnd.2 he

theorem mem_of_countOf_pos (m : List (Byte × Nat)) (c : Byte) (h : 0 < countOf m c) :
    (c, countOf m c) ∈ m := by
  induction m with
  | nil => simp [countOf] at h
  | cons e m ih =>
    obtain ⟨k, n0⟩ := e
    by_cases hk : k = c
    · subst hk; simp [countOf]
    · simp only [countOf, hk, if_false] at h ⊢
      exact List.mem_cons_of_mem _ (ih h)

theorem foldl_incr_spec (text : List Byte) :
    ∀ m : List (Byte × Nat), (m.map Prod.fst).Nodup → (∀ e ∈ m, 0 < e.2) →
      (((text.foldl (fun m ch => incr ch m) m).map Prod.fst).Nodup ∧
       (∀ e ∈ text.foldl (fun m ch => incr ch m) m, 0 < e.2) ∧
       ∀ c, countOf (text.foldl (fun m ch => incr ch m) m) c = countOf m c + text.count c) := by
  induction text with
  | nil => intro m h1 h2; exact ⟨h1, h2, fun c => by simp⟩
  | cons ch text ih =>
    intro m h1 h2
    obtain ⟨a, b, c⟩ := ih (incr ch m) (incr_nodup ch m h1) (incr_pos ch m h2)
    refine ⟨a, b, fun x => ?_⟩
    rw [List.foldl_cons, c x, countOf_incr, List.count_cons]
    by_cases hx : x = ch
    · subst hx; simp; omega
    · have hx' : ¬ ch = x := fun e => hx e.symm
      simp [hx, hx']

theorem freq_map_nodup (text : List Byte) : ((freq_map text).map Prod.fst).Nodup :=
  (foldl_incr_spec text [] List.nodup_nil (by simp)).1

theorem mem_freq_map (text : List Byte) (c : Byte) (n : Nat) :
    (c, n) ∈ freq_map text ↔ c ∈ text ∧ n = text.count c := by
  obtain ⟨h1, h2, h3⟩ := foldl_incr_spec text [] List.nodup_nil (by simp)
  have h3' : ∀ c, countOf (freq_map text) c = text.count c := by
    intro c; simpa [countOf, freq_map] using h3 c
  constructor
  · intro h
    have hn := countOf_of_mem _ (freq_map_nodup text) c n h
    have hpos : 0 < n := h2 (c, n) h
    rw [h3'] at hn
    exact ⟨List.count_pos_iff.1 (hn ▸ hpos), hn.symm⟩
  · rintro ⟨hc, rfl⟩
    have hpos : 0 < countOf (freq_map text) c := by
      rw [h3']; exact List.count_pos_iff.2 hc
    have := mem_of_countOf_pos _ c hpos
    rwa [h3'] at this

theorem freq_map_ne_nil (text : List Byte) (h : text ≠ []) : freq_map text ≠ [] := by
  cases text with
  | nil => exact absurd rfl h
  | cons c t =>
    intro h0
    have := (mem_freq_map (c :: t) c ((c :: t).count c)).2 ⟨List.mem_cons_self _ _, rfl⟩
    rw [h0] at this
    cases this

/-! ## The merge loop -/

theorem pushLeaves_spec (pq : PriorityQueue) (entries : List (Byte × Nat)) :
    pq.inv (pushLeaves pq entries) ∧
    (pushLeaves pq entries).Perm (entries.map leafNode) := by
  have key : ∀ (es : List (Byte × Nat)) (q : List Node), pq.inv q →
      pq.inv (es.foldl (fun q e => pq.push q (Node.mk e.1 e.2 Node.null Node.null)) q) ∧
      (es.foldl (fun q e => pq.push q (Node.mk e.1 e.2 Node.null Node.null)) q).Perm
        (es.map leafNode ++ q) := by
    intro es
    induction es with
    | nil => intro q hq; exact ⟨hq, List.Perm.refl _⟩
    | cons e es ih =>
      intro q hq
      obtain ⟨h1, h2⟩ := ih (pq.push q (Node.mk e.1 e.2 Node.null Node.null)) (pq.inv_push q _ hq)
      refine ⟨h1, h2.trans ?_⟩
      have h3 := pq.perm_push q (Node.mk e.1 e.2 Node.null Node.null) hq
      have h4 := (List.Perm.append_left (es.map leafNode) h3)
      refine h4.trans ?_
      simp only [List.map_cons, List.cons_append]
      exact List.perm_middle
  have := key entries [] pq.inv_nil
  simpa [pushLeaves] using this

theorem top_mem (pq : PriorityQueue) (q : List Node) (h : pq.inv q) (hne : q ≠ []) :
    pq.top q ∈ q :=
  (pq.perm_pop q h hne).subset (List.mem_cons_self _ _)

theorem mergeStep_spec (pq : PriorityQueue) (q : List Node) (h : pq.inv q)
    (hlen : 1 < q.length) :
    ∃ l r q2, mergeStep pq q = Except.ok (pq.push q2 (Node.mk 0 (l.freq + r.freq) l r)) ∧
      pq.inv q2 ∧ (l :: r :: q2).Perm q ∧
      (∀ y ∈ r :: q2, l.freq ≤ y.freq) ∧ (∀ y ∈ q2, r.freq ≤ y.freq) := by
  have hne : q ≠ [] := by
    intro h0; rw [h0] at hlen; simp at hlen
  have hp1 := pq.perm_pop q h hne
  have hlen1 : (pq.pop q).length + 1 = q.length := by
    simpa using hp1.length_eq
  have hne1 : pq.pop q ≠ [] := by
    intro h0; rw [h0] at hlen1; simp at hlen1; omega
  have hi1 := pq.inv_pop q h hne
  have hp2 := pq.perm_pop (pq.pop q) hi1 hne1
  refine ⟨pq.top q, pq.top (pq.pop q), pq.pop (pq.pop q), ?_, pq.inv_pop _ hi1 hne1, ?_, ?_, ?_⟩
  · simp [mergeStep, hne, hne1]
  · exact (List.Perm.cons _ hp2).trans hp1
  · intro y hy
    have hy' : y ∈ q := hp1.subset (List.mem_cons_of_mem _ (hp2.subset hy))
    have := pq.top_min q h y hy'
    simpa [Compare] using this
  · intro y hy
    have hy' : y ∈ pq.pop q := hp2.subset (List.mem_cons_of_mem _ hy)
    have := pq.top_min (pq.pop q) hi1 y hy'
    simpa [Compare] using this

/-- Induction over the merge loop -/
theorem mergeLoop_induct (pq : PriorityQueue) (P : List Node → Prop)
    (hperm : ∀ q q1, q.Perm q1 → P q → P q1)
    (hmerge : ∀ l r q2, P (l :: r :: q2) → (∀ y ∈ r :: q2, l.freq ≤ y.freq) →
      (∀ y ∈ q2, r.freq ≤ y.freq) → P (Node.mk 0 (l.freq + r.freq) l r :: q2)) :
    ∀ (fuel : Nat) (q : List Node), pq.inv q → q ≠ [] → q.length ≤ fuel + 1 → P q →
      ∃ t, mergeLoop pq fuel q = Except.ok [t] ∧ pq.top [t] = t ∧ P [t] := by
  have single : ∀ q : List Node, pq.inv q → q ≠ [] → ¬ 1 < q.length → P q →
      ∃ t, q = [t] ∧ pq.top [t] = t ∧ P [t] := by
    intro q hq hne hlen hP
    match q, hne, hlen with
    | [t], _, _ =>
      refine ⟨t, rfl, ?_, hP⟩
      have := top_mem pq [t] hq (by simp)
      simpa using this
    | _ :: _ :: _, _, hlen => simp at hlen
  intro fuel
  induction fuel with
  | zero =>
    intro q hq hne hlen hP
    have h1 : ¬ 1 < q.length := by omega
    obtain ⟨t, rfl, ht, hPt⟩ := single q hq hne h1 hP
    exact ⟨t, by simp [mergeLoop], ht, hPt⟩
  | succ fuel ih =>
    intro q hq hne hlen hP
    by_cases h1 : 1 < q.length
    · obtain ⟨l, r, q2, hstep, hi2, hp, hl, hr⟩ := mergeStep_spec pq q hq h1
      have hpush := pq.perm_push q2 (Node.mk 0 (l.freq + r.freq) l r) hi2
      have hlen2 : q2.length + 2 = q.length := by simpa using hp.length_eq
      have hlen3 : (pq.push q2 (Node.mk 0 (l.freq + r.freq) l r)).length = q2.length + 1 := by
        simpa using hpush.length_eq
      have hne3 : pq.push q2 (Node.mk 0 (l.freq + r.freq) l r) ≠ [] := by
        intro h0; rw [h0] at hlen3; simp at hlen3
      have hP3 : P (pq.push q2 (Node.mk 0 (l.freq + r.freq) l r)) :=
        hperm _ _ hpush.symm (hmerge l r q2 (hperm _ _ hp.symm hP) hl hr)
      obtain ⟨t, ht, htop, hPt⟩ := ih _ (pq.inv_push q2 _ hi2) hne3 (by omega) hP3
      refine ⟨t, ?_, htop, hPt⟩
      simp [mergeLoop, h1, hstep, ht]
    · obtain ⟨t, rfl, ht, hPt⟩ := single q hq hne h1 hP
      exact ⟨t, by simp [mergeLoop], ht, hPt⟩

theorem buildHuffmanTree_induct (pq : PriorityQueue) (o : MapOrder) (text : List Byte)
    (P : List Node → Prop)
    (hperm : ∀ q q1, q.Perm q1 → P q → P q1)
    (hmerge : ∀ l r q2, P (l :: r :: q2) → (∀ y ∈ r :: q2, l.freq ≤ y.freq) →
      (∀ y ∈ q2, r.freq ≤ y.freq) → P (Node.mk 0 (l.freq + r.freq) l r :: q2))
    (hne : text ≠ []) (h0 : P ((freq_map text).map leafNode)) :
    ∃ t, buildHuffmanTree pq o text = Except.ok t ∧ P [t] := by
  obtain ⟨hinv, hp⟩ := pushLeaves_spec pq (o.enum (freq_map text))
  have hp2 : (pushLeaves pq (o.enum (freq_map text))).Perm ((freq_map text).map leafNode) :=
    hp.trans ((o.perm (freq_map text)).map leafNode)
  have hne0 : pushLeaves pq (o.enum (freq_map text)) ≠ [] := by
    intro h
    rw [h] at hp2
    have := hp2.length_eq
    have h3 := freq_map_ne_nil text hne
    cases hm : freq_map text with
    | nil => exact h3 hm
    | cons e m => rw [hm] at this; simp at this
  obtain ⟨t, ht, htop, hPt⟩ := mergeLoop_induct pq P hperm hmerge
    (pushLeaves pq (o.enum (freq_map text))).length _ hinv hne0 (Nat.le_succ _)
    (hperm _ _ hp2.symm h0)
  exact ⟨t, by simp [buildHuffmanTree, ht, htop], hPt⟩

theorem demo_mergeLoop_eq (pq : PriorityQueue) :
    ∀ (fuel : Nat) (q q1 : List Node), pq.inv q → q ≠ [] →
      mergeLoop pq fuel q = Except.ok q1 → Demo.mergeLoop pq (fuel + 1) q = Except.ok q1 := by
  intro fuel
  induction fuel with
  | zero =>
    intro q q1 hq hne h
    by_cases h1 : 1 < q.length
    · simp [mergeLoop, h1] at h
    · have hlen : q.length = 1 := by
        cases q with
        | nil => exact absurd rfl hne
        | cons a q => simp only [List.length_cons] at h1 ⊢; omega
      simp only [mergeLoop, h1, if_false, Except.ok.injEq] at h
      subst h
      simp [Demo.mergeLoop, hlen]
  | succ fuel ih =>
    intro q q1 hq hne h
    by_cases h1 : 1 < q.length
    · obtain ⟨l, r, q2, hstep, hi2, hp, -, -⟩ := mergeStep_spec pq q hq h1
      have hpush := pq.perm_push q2 (Node.mk 0 (l.freq + r.freq) l r) hi2
      have hne3 : pq.push q2 (Node.mk 0 (l.freq + r.freq) l r) ≠ [] := by
        intro h0; rw [h0] at hpush; simpa using hpush.length_eq
      have hlen : q.length ≠ 1 := by omega
      simp only [mergeLoop, h1, if_true, hstep] at h
      have := ih _ q1 (pq.inv_push q2 _ hi2) hne3 h
      rw [Demo.mergeLoop]
      simp only [hlen, ne_eq, not_false_eq_true, if_true, hstep]
      exact this
    · have hlen : q.length = 1 := by
        cases q with
        | nil => exact absurd rfl hne
        | cons a q => simp only [List.length_cons] at h1 ⊢; omega
      simp only [mergeLoop, h1, if_false, Except.ok.injEq] at h
      subst h
      simp [Demo.mergeLoop, hlen]

theorem demo_huffmanTree_eq (pq : PriorityQueue) (o : MapOrder) (text : List Byte) (t : Node)
    (hne : text ≠ []) (h : buildHuffmanTree pq o text = Except.ok t) :
    Demo.huffmanTree pq o text = Except.ok t := by
  obtain ⟨hinv, hp⟩ := pushLeaves_spec pq (o.enum (freq_map text))
  have hne0 : pushLeaves pq (o.enum (freq_map text)) ≠ [] := by
    intro h0
    rw [h0] at hp
    have h1 := (hp.trans ((o.perm (freq_map text)).map leafNode)).length_eq
    have h3 := freq_map_ne_nil text hne
    cases hm : freq_map text with
    | nil => exact h3 hm
    | cons e m => rw [hm] at h1; simp at h1
  unfold buildHuffmanTree at h
  unfold Demo.huffmanTree
  cases hl : mergeLoop pq (pushLeaves pq (o.enum (freq_map text))).length
      (pushLeaves pq (o.enum (freq_map text))) with
  | error e => simp [hl] at h
  | ok q1 =>
    simp only [hl] at h
    simp only [demo_mergeLoop_eq pq _ _ q1 hinv hne0 hl]
    exact h

namespace Node

theorem Huff.ne_null {t : Node} (h : Huff t) : t ≠ null := by
  cases h <;> simp

theorem Huff.isNull {t : Node} (h : Huff t) : t.isNull = false := by
  cases h <;> rfl

theorem leaves_leaf (c : Byte) (f : Nat) : leaves (mk c f null null) = [(c, f)] := rfl

theorem leaves_node {l r : Node} (c : Byte) (f : Nat) (hl : Huff l) :
    leaves (mk c f l r) = leaves l ++ leaves r := by
  simp [leaves, hl.isNull]

theorem Huff.leaves_ne_nil {t : Node} (h : Huff t) : leaves t ≠ [] := by
  induction h with
  | leaf c f => simp [leaves_leaf]
  | node hl hr ihl ihr => rw [leaves_node _ _ hl]; simp [ihl]

end Node

/-- The loop invariant of the merge loop: every tree of the queue is a Huffman
tree and the leaves of the queue are the entries `E`. -/
theorem build_spec (pq : PriorityQueue) (o : MapOrder) (text : List Byte) (hne : text ≠ []) :
    ∃ t, buildHuffmanTree pq o text = Except.ok t ∧ Demo.huffmanTree pq o text = Except.ok t ∧
      t.Huff ∧ t.leaves.Perm (freq_map text) := by
  obtain ⟨t, ht, hP⟩ := buildHuffmanTree_induct pq o text
    (fun q => (∀ t ∈ q, t.Huff) ∧ (q.flatMap Node.leaves).Perm (freq_map text))
    (fun q q1 hp h => ⟨fun t ht => h.1 t (hp.symm.subset ht),
      (List.Perm.flatMap_right _ hp.symm).trans h.2⟩)
    (fun l r q2 h _ _ => by
      have hl := h.1 l (by simp)
      have hr := h.1 r (by simp)
      refine ⟨?_, ?_⟩
      · intro t ht
        rcases List.mem_cons.1 ht with rfl | ht
        · exact Node.Huff.node hl hr
        · exact h.1 t (by simp [ht])
      · have := h.2
        simp only [List.flatMap_cons] at this ⊢
        rw [Node.leaves_node _ _ hl, List.append_assoc]
        exact this)
    hne
    ⟨by
      intro t ht
      obtain ⟨e, -, rfl⟩ := List.mem_map.1 ht
      exact Node.Huff.leaf _ _,
     by
      have : ∀ m : List (Byte × Nat), (m.map leafNode).flatMap Node.leaves = m := by
        intro m
        induction m with
        | nil => rfl
        | cons e m ih => simp [List.flatMap_cons, leafNode, Node.leaves_leaf, ih]
      rw [this]⟩
  refine ⟨t, ht, demo_huffmanTree_eq pq o text t hne ht, hP.1 t (by simp), ?_⟩
  simpa using hP.2

/-! ## Code tables -/

namespace Node

theorem isNull_iff (t : Node) : t.isNull = true ↔ t = null := by
  cases t <;> simp [isNull]

@[simp] theorem walk_nil (t : Node) : walk t [] = t := by
  cases t <;> rfl

theorem walk_null (p : List Bool) : walk null p = null := by
  cases p <;> rfl

theorem walk_append (t : Node) (p1 p2 : List Bool) :
    walk t (p1 ++ p2) = walk (walk t p1) p2 := by
  induction p1 generalizing t with
  | nil => simp
  | cons b p1 ih =>
    cases t with
    | null => simp [walk, walk_null]
    | mk c f l r => simp [walk, ih]

/-- The leaf reached along a path determines the leaf reached along every path it
is an initial segment of. -/
theorem leaf_walk_unique (t : Node) (p1 p2 : List Bool) (c1 c2 : Byte) (f1 f2 : Nat)
    (h1 : walk t p1 = mk c1 f1 null null) (h2 : walk t p2 = mk c2 f2 null null)
    (hp : p1 <+: p2) : c1 = c2 ∧ p1 = p2 := by
  obtain ⟨rest, rfl⟩ := hp
  rw [walk_append, h1] at h2
  cases rest with
  | nil =>
    simp only [walk] at h2
    injection h2 with hc
    exact ⟨hc, by simp⟩
  | cons b rest =>
    cases b <;> simp [walk, walk_null] at h2

end Node

theorem generateCodes_some {t : Node} (ht : t.Huff) :
    ∀ (pfx : List Bool) (m : CodeMap) (c : Byte) (code : List Bool),
      generateCodes t pfx m c = some code →
      m c = some code ∨
        ∃ path f, code = pfx ++ path ∧ t.walk path = Node.mk c f Node.null Node.null := by
  induction ht with
  | leaf ch f =>
    intro pfx m c code h
    by_cases h0 : ch = 0
    · simp [generateCodes, h0] at h
      exact Or.inl h
    · simp only [generateCodes, ne_eq, h0, not_false_eq_true, if_true, CodeMap.insert] at h
      by_cases hc : c = ch
      · right
        simp only [hc, if_true, Option.some.injEq] at h
        exact ⟨[], f, by simp [h], by rw [hc]; rfl⟩
      · left
        simpa [hc] using h
  | @node l r hl hr ihl ihr =>
    intro pfx m c code h
    simp only [generateCodes, ne_eq, not_true_eq_false, if_false] at h
    rcases ihr _ _ _ _ h with h1 | ⟨path, f, hcode, hw⟩
    · rcases ihl _ _ _ _ h1 with h2 | ⟨path, f, hcode, hw⟩
      · exact Or.inl h2
      · exact Or.inr ⟨false :: path, f, by simp [hcode], by simpa [Node.walk] using hw⟩
    · exact Or.inr ⟨true :: path, f, by simp [hcode], by simpa [Node.walk] using hw⟩

theorem encode_some (t : Node) :
    ∀ (str : List Bool) (m : CodeMap) (c : Byte) (code : List Bool),
      Demo.encode t str m c = some code →
      m c = some code ∨
        ∃ path f, code = str ++ path ∧ t.walk path = Node.mk c f Node.null Node.null := by
  induction t with
  | null => intro str m c code h; exact Or.inl h
  | mk ch f l r ihl ihr =>
    intro str m c code h
    simp only [Demo.encode] at h
    rcases ihr _ _ _ _ h with h1 | ⟨path, f1, hcode, hw⟩
    · rcases ihl _ _ _ _ h1 with h2 | ⟨path, f1, hcode, hw⟩
      · by_cases hleaf : (l.isNull && r.isNull) = true
        · simp only [hleaf, if_true, CodeMap.insert] at h2
          by_cases hc : c = ch
          · right
            simp only [hc, if_true, Option.some.injEq] at h2
            simp only [Bool.and_eq_true, Node.isNull_iff] at hleaf
            refine ⟨[], f, by simp [h2], ?_⟩
            rw [hc, hleaf.1, hleaf.2]; rfl
          · left
            simpa [hc] using h2
        · simp only [hleaf] at h2
          exact Or.inl h2
      · exact Or.inr ⟨false :: path, f1, by simp [hcode], by simpa [Node.walk] using hw⟩
    · exact Or.inr ⟨true :: path, f1, by simp [hcode], by simpa [Node.walk] using hw⟩

/-! ## Decoding -/

theorem decodeLoop_path (T : Node) (c : Byte) (f : Nat) (rest : List Bool) (out : List Byte) :
    ∀ (p : List Bool) (cur : Node), p ≠ [] → cur.walk p = Node.mk c f Node.null Node.null →
      decodeLoop T (p ++ rest) (out, cur) = decodeLoop T rest (out ++ [c], T) := by
  intro p
  induction p with
  | nil => intro cur h; exact absurd rfl h
  | cons b p ih =>
    intro cur _ hw
    cases cur with
    | null => simp [Node.walk] at hw
    | mk ch0 f0 l r =>
      simp only [Node.walk] at hw
      cases hnext : (if b = true then r else l) with
      | null => rw [hnext, Node.walk_null] at hw; cases hw
      | mk ch1 f1 l1 r1 =>
        rw [hnext] at hw
        by_cases hleaf : (l1.isNull && r1.isNull) = true
        · simp only [Bool.and_eq_true, Node.isNull_iff] at hleaf
          obtain ⟨rfl, rfl⟩ := hleaf
          cases p with
          | nil =>
            simp only [Node.walk_nil] at hw
            injection hw with hc
            subst hc
            simp [decodeLoop, decodeStep, hnext, Node.isNull]
          | cons b1 p1 =>
            cases b1 <;> simp [Node.walk, Node.walk_null] at hw
        · have hp : p ≠ [] := by
            intro h0
            subst h0
            simp only [Node.walk_nil] at hw
            injection hw with _ _ hl hr
            subst hl hr
            simp [Node.isNull] at hleaf
          have := ih (Node.mk ch1 f1 l1 r1) hp hw
          simp only [List.cons_append, decodeLoop, decodeStep, hnext, hleaf]
          exact this

/-- Decoding undoes encoding: when the code map sends every character of the text
to the path of a leaf of the tree that carries it, and the root is not a leaf. -/
theorem decode_encode (T : Node) (codes : CodeMap) (hT : T.isLeaf = false) :
    ∀ (text : List Byte) (out : List Byte),
      (∀ c ∈ text, ∃ path f, codes c = some path ∧
        T.walk path = Node.mk c f Node.null Node.null) →
      ∃ bits, encodeText text codes = Except.ok bits ∧
        decodeLoop T bits (out, T) = Except.ok (out ++ text, T) := by
  intro text
  induction text with
  | nil => intro out _; exact ⟨[], rfl, by simp [decodeLoop]⟩
  | cons c text ih =>
    intro out h
    obtain ⟨path, f, hc, hw⟩ := h c (List.mem_cons_self _ _)
    obtain ⟨bits, hb, hd⟩ := ih (out ++ [c]) (fun x hx => h x (List.mem_cons_of_mem _ hx))
    have hp : path ≠ [] := by
      intro h0
      subst h0
      simp only [Node.walk_nil] at hw
      rw [hw] at hT
      simp [Node.isLeaf, Node.isNull] at hT
    refine ⟨path ++ bits, by simp [encodeText, hc, hb], ?_⟩
    rw [decodeLoop_path T c f bits out path T hp hw, hd]
    simp

theorem generateCodes_frame {t : Node} (ht : t.Huff) :
    ∀ (pfx : List Bool) (m : CodeMap) (c : Byte), c ∉ t.leaves.map Prod.fst →
      generateCodes t pfx m c = m c := by
  induction ht with
  | leaf ch f =>
    intro pfx m c hc
    have hne : c ≠ ch := by simpa [Node.leaves_leaf] using hc
    by_cases h0 : ch = 0
    · simp [generateCodes, h0]
    · simp [generateCodes, h0, CodeMap.insert, hne]
  | @node l r hl hr ihl ihr =>
    intro pfx m c hc
    rw [Node.leaves_node _ _ hl] at hc
    simp only [List.map_append, List.mem_append, not_or] at hc
    simp only [generateCodes, ne_eq, not_true_eq_false, if_false]
    rw [ihr _ _ _ hc.2, ihl _ _ _ hc.1]

theorem generateCodes_complete {t : Node} (ht : t.Huff) :
    ∀ (pfx : List Bool) (m : CodeMap), (t.leaves.map Prod.fst).Nodup →
      (∀ c ∈ t.leaves.map Prod.fst, c ≠ 0) →
      ∀ c ∈ t.leaves.map Prod.fst, ∃ path f, generateCodes t pfx m c = some (pfx ++ path) ∧
        t.walk path = Node.mk c f Node.null Node.null := by
  induction ht with
  | leaf ch f =>
    intro pfx m _ h0 c hc
    have hcc : c = ch := by simpa [Node.leaves_leaf] using hc
    subst hcc
    have hne : c ≠ 0 := h0 c hc
    exact ⟨[], f, by simp [generateCodes, hne, CodeMap.insert], by simp⟩
  | @node l r hl hr ihl ihr =>
    intro pfx m hnd h0 c hc
    rw [Node.leaves_node _ _ hl] at hc hnd h0
    rw [List.map_append] at hc hnd h0
    have hndl := (List.nodup_append.1 hnd).1
    have hndr := (List.nodup_append.1 hnd).2.1
    have hdis := (List.nodup_append.1 hnd).2.2
    simp only [generateCodes, ne_eq, not_true_eq_false, if_false]
    rcases List.mem_append.1 hc with hcl | hcr
    · have hnr : c ∉ r.leaves.map Prod.fst := fun h => hdis hcl h
      obtain ⟨path, f, hg, hw⟩ := ihl (pfx ++ [false]) m hndl
        (fun x hx => h0 x (List.mem_append_left _ hx)) c hcl
      refine ⟨false :: path, f, ?_, by simpa [Node.walk] using hw⟩
      rw [generateCodes_frame hr _ _ _ hnr, hg]
      simp
    · obtain ⟨path, f, hg, hw⟩ := ihr (pfx ++ [true]) (generateCodes l (pfx ++ [false]) m) hndr
        (fun x hx => h0 x (List.mem_append_right _ hx)) c hcr
      refine ⟨true :: path, f, ?_, by simpa [Node.walk] using hw⟩
      rw [hg]
      simp

/-! ## Padding and bytes -/

theorem extraPadding_range (e : List Bool) : 1 ≤ extraPadding e ∧ extraPadding e ≤ 8 := by
  unfold extraPadding
  omega

theorem bitset8_length (n : Nat) : (bitset8 n).length = 8 := rfl

theorem bitsToNat_bitset8 (n : Nat) (h : n ≤ 8) : bitsToNat (bitset8 n) = n := by
  interval_cases n <;> rfl

theorem bitset8_bitsToNat (c : List Bool) (h : c.length = 8) :
    bitset8 (bitsToNat c % 256) = c := by
  match c, h with
  | [b0, b1, b2, b3, b4, b5, b6, b7], _ =>
    cases b0 <;> cases b1 <;> cases b2 <;> cases b3 <;> cases b4 <;> cases b5 <;>
      cases b6 <;> cases b7 <;> rfl

theorem padEncodedText_length (e : List Bool) :
    (padEncodedText e).length = 8 + e.length + extraPadding e := by
  simp only [padEncodedText, List.length_append, bitset8_length, List.length_replicate]

theorem padEncodedText_length_mod (e : List Bool) : (padEncodedText e).length % 8 = 0 := by
  rw [padEncodedText_length]
  unfold extraPadding
  omega

/-- Padding is removable -/
theorem removePadding_padEncodedText (e : List Bool) :
    removePadding (padEncodedText e) = Except.ok e := by
  have hr := extraPadding_range e
  have hlen := padEncodedText_length e
  have htake : (padEncodedText e).take 8 = bitset8 (extraPadding e) := by
    simp only [padEncodedText, List.append_assoc]
    rw [List.take_left' (bitset8_length _)]
  have hdrop : (padEncodedText e).drop 8 = e ++ List.replicate (extraPadding e) false := by
    simp only [padEncodedText, List.append_assoc]
    rw [List.drop_left' (bitset8_length _)]
  unfold removePadding
  simp only [htake, bitsToNat_bitset8 _ hr.2, hdrop, hlen]
  have h1 : ¬ (8 + e.length + extraPadding e < 8) := by omega
  have h2 : 8 + extraPadding e ≤ 8 + e.length + extraPadding e := by omega
  have h3 : 8 + e.length + extraPadding e - 8 - extraPadding e = e.length := by omega
  simp only [h1, h2, h3, if_true, if_false]
  rw [List.take_left' rfl]

theorem getByteArray_nil : getByteArray [] = [] := rfl

theorem getByteArray_append (c s : List Bool) (hc : c.length = 8) :
    getByteArray (c ++ s) = (bitsToNat c % 256) :: getByteArray s := by
  unfold getByteArray
  have h1 : ((c ++ s).length + 7) / 8 = (s.length + 7) / 8 + 1 := by
    simp only [List.length_append, hc]; omega
  rw [h1, List.range_succ_eq_map, List.map_cons, List.map_map]
  congr 1
  · simp [List.take_left' hc]
  · apply List.map_congr_left
    intro k _
    simp only [Function.comp]
    have : 8 * (k + 1) = c.length + 8 * k := by omega
    rw [this, List.drop_append]

theorem bitString_cons (b : Nat) (bs : List Nat) :
    bitString (b :: bs) = bitset8 b ++ bitString bs := by
  simp [bitString]

/-- Byte packing loses no bit -/
theorem bitString_getByteArray (s : List Bool) (h : s.length % 8 = 0) :
    bitString (getByteArray s) = s := by
  have key : ∀ (n : Nat) (s : List Bool), s.length = 8 * n →
      bitString (getByteArray s) = s := by
    intro n
    induction n with
    | zero =>
      intro s hs
      have : s = [] := List.eq_nil_of_length_eq_zero (by simpa using hs)
      subst this
      rfl
    | succ n ih =>
      intro s hs
      have h8 : (s.take 8).length = 8 := by
        rw [List.length_take]; omega
      have hd : (s.drop 8).length = 8 * n := by
        rw [List.length_drop]; omega
      have hs' : s = s.take 8 ++ s.drop 8 := (List.take_append_drop 8 s).symm
      rw [hs', getByteArray_append _ _ h8, bitString_cons, bitset8_bitsToNat _ h8, ih _ hd]
  exact key (s.length / 8) s (by omega)

/-! ## The pipeline -/

theorem encodeText_ok (text : List Byte) (m : CodeMap) (e : List Bool)
    (h : encodeText text m = Except.ok e) : ∀ c ∈ text, ∃ code, m c = some code := by
  induction text generalizing e with
  | nil => intro c hc; cases hc
  | cons x text ih =>
    intro c hc
    simp only [encodeText] at h
    cases hx : m x with
    | none => simp [hx] at h
    | some code =>
      simp only [hx] at h
      cases hr : encodeText text m with
      | error err => simp [hr] at h
      | ok rest =>
        rcases List.mem_cons.1 hc with rfl | hc
        · exact ⟨code, hx⟩
        · exact ih rest hr c hc

/-- What `decompressFile` returns for the bytes `compressFile` wrote, given a tree
whose root is not a leaf and whose code map sends every character of the text to
the path of its leaf. -/
theorem decompress_compress (t : Node) (text : List Byte) (e : List Bool) (ht : t.Huff)
    (hleaf : t.isLeaf = false)
    (he : encodeText text (generateCodes t [] CodeMap.empty) = Except.ok e) :
    decompressFile (getByteArray (padEncodedText e)) t = Except.ok text := by
  have hcodes : ∀ c ∈ text, ∃ path f, generateCodes t [] CodeMap.empty c = some path ∧
      t.walk path = Node.mk c f Node.null Node.null := by
    intro c hc
    obtain ⟨code, hcode⟩ := encodeText_ok text _ e he c hc
    rcases generateCodes_some ht _ _ _ _ hcode with h | ⟨path, f, hp, hw⟩
    · simp [CodeMap.empty] at h
    · exact ⟨code, f, hcode, by simpa [hp] using hw⟩
  obtain ⟨bits, hb, hd⟩ := decode_encode t _ hleaf text [] hcodes
  rw [he] at hb
  injection hb with hb
  subst hb
  simp only [decompressFile, bitString_getByteArray _ (padEncodedText_length_mod e),
    removePadding_padEncodedText, decodeText, hd, List.nil_append]

theorem text_of_single_entry (text : List Byte) (c : Byte) (f : Nat)
    (h : (freq_map text).Perm [(c, f)]) : text = List.replicate f c := by
  have hall : ∀ x ∈ text, x = c := by
    intro x hx
    have h1 := (mem_freq_map text x (text.count x)).2 ⟨hx, rfl⟩
    have h2 := h.subset h1
    simp only [List.mem_singleton, Prod.mk.injEq] at h2
    exact h2.1
  have hc : (c, f) ∈ freq_map text := h.symm.subset (List.mem_singleton_self _)
  have hf := ((mem_freq_map text c f).1 hc).2
  have hlen : text.length = f := by
    rw [hf]
    exact (List.count_eq_length.2 (fun x hx => (hall x hx).symm)).symm
  rw [← hlen]
  exact List.eq_replicate_of_mem hall

theorem Node.Huff.isLeaf_false_or {t : Node} (h : t.Huff) :
    (∃ c f, t = Node.mk c f Node.null Node.null) ∨ t.isLeaf = false := by
  cases h with
  | leaf c f => exact Or.inl ⟨c, f, rfl⟩
  | node hl hr => right; simp [Node.isLeaf, hl.isNull]

/-- The tree of a text with two different characters is not a single leaf. -/
theorem build_isLeaf_false (t : Node) (text : List Byte) (ht : t.Huff)
    (hl : t.leaves.Perm (freq_map text)) (h2 : ∃ a ∈ text, ∃ b ∈ text, a ≠ b) :
    t.isLeaf = false := by
  rcases ht.isLeaf_false_or with ⟨c, f, rfl⟩ | h
  · exfalso
    obtain ⟨a, ha, b, hb, hab⟩ := h2
    rw [Node.leaves_leaf] at hl
    have hrep := text_of_single_entry text c f hl.symm
    rw [hrep] at ha hb
    exact hab ((List.eq_of_mem_replicate ha).trans (List.eq_of_mem_replicate hb).symm)
  · exact h

/-- The round trip of `main` for a text with at least two different characters,
none of them `\0`. -/
theorem main_roundtrip (pq : PriorityQueue) (o : MapOrder) (text : List Byte)
    (h2 : ∃ a ∈ text, ∃ b ∈ text, a ≠ b) (h0 : (0 : Byte) ∉ text) :
    main pq o text = Except.ok text := by
  obtain ⟨a, ha, -⟩ := id h2
  obtain ⟨t, ht, -, hH, hl⟩ := build_spec pq o text (List.ne_nil_of_mem ha)
  have hleaf := build_isLeaf_false t text hH hl h2
  have hsyms : ∀ c, c ∈ t.leaves.map Prod.fst ↔ c ∈ text := by
    intro c
    rw [(hl.map Prod.fst).mem_iff]
    constructor
    · intro hc
      obtain ⟨⟨c1, n⟩, he, rfl⟩ := List.mem_map.1 hc
      exact ((mem_freq_map text c1 n).1 he).1
    · intro hc
      exact List.mem_map.2 ⟨(c, text.count c), (mem_freq_map text c _).2 ⟨hc, rfl⟩, rfl⟩
  have hnd : (t.leaves.map Prod.fst).Nodup :=
    (hl.map Prod.fst).nodup_iff.2 (freq_map_nodup text)
  have hcodes : ∀ c ∈ text, ∃ path f, generateCodes t [] CodeMap.empty c = some path ∧
      t.walk path = Node.mk c f Node.null Node.null := by
    intro c hc
    obtain ⟨path, f, hg, hw⟩ := generateCodes_complete hH [] CodeMap.empty hnd
      (fun x hx hx0 => h0 (hx0 ▸ (hsyms x).1 hx)) c ((hsyms c).2 hc)
    exact ⟨path, f, by simpa using hg, hw⟩
  obtain ⟨e, he, -⟩ := decode_encode t _ hleaf text [] hcodes
  have hd := decompress_compress t text e hH hleaf he
  simp only [main, compressFile, ht, he, hd]

theorem decodeLoop_append (T : Node) (b1 b2 : List Bool) (st st1 : List Byte × Node)
    (h : decodeLoop T b1 st = Except.ok st1) :
    decodeLoop T (b1 ++ b2) st = decodeLoop T b2 st1 := by
  induction b1 generalizing st with
  | nil =>
    simp only [decodeLoop] at h
    injection h with h
    subst h
    rfl
  | cons b b1 ih =>
    simp only [decodeLoop, List.cons_append] at h ⊢
    cases hs : decodeStep T b st with
    | error e => simp [hs] at h
    | ok st2 =>
      simp only [hs] at h ⊢
      exact ih st2 h

/-- Bits that lead from a node to a node with a child are consumed without output. -/
theorem decodeLoop_unfinished (T : Node) (out : List Byte) :
    ∀ (p : List Bool) (cur : Node), (cur.walk p).isNull = false → (cur.walk p).isLeaf = false →
      decodeLoop T p (out, cur) = Except.ok (out, cur.walk p) := by
  intro p
  induction p with
  | nil => intro cur _ _; simp [decodeLoop]
  | cons b p ih =>
    intro cur hn hl
    cases cur with
    | null => simp [Node.walk, Node.isNull] at hn
    | mk ch0 f0 l r =>
      simp only [Node.walk] at hn hl ⊢
      cases hnext : (if b = true then r else l) with
      | null => rw [hnext, Node.walk_null] at hn; simp [Node.isNull] at hn
      | mk ch1 f1 l1 r1 =>
        rw [hnext] at hn hl
        by_cases hleaf : (l1.isNull && r1.isNull) = true
        · exfalso
          simp only [Bool.and_eq_true, Node.isNull_iff] at hleaf
          obtain ⟨rfl, rfl⟩ := hleaf
          cases p with
          | nil => simp [Node.isLeaf, Node.isNull] at hl
          | cons b1 p1 => cases b1 <;> simp [Node.walk, Node.walk_null, Node.isNull] at hn
        · simp only [decodeLoop, decodeStep, hnext, hleaf]
          exact ih _ hn hl

/-! ## Texts of one repeated character -/

theorem freq_map_replicate (c : Byte) (n : Nat) :
    freq_map (List.replicate (n + 1) c) = [(c, n + 1)] := by
  have key : ∀ (k m : Nat),
      (List.replicate k c).foldl (fun m ch => incr ch m) [(c, m)] = [(c, m + k)] := by
    intro k
    induction k with
    | zero => intro m; rfl
    | succ k ih =>
      intro m
      rw [List.replicate_succ, List.foldl_cons]
      simp only [incr, if_true]
      rw [ih (m + 1)]
      congr 2
      omega
  unfold freq_map
  rw [List.replicate_succ, List.foldl_cons]
  simp only [incr]
  rw [key n 1]
  congr 2
  omega

theorem Node.Huff.two_le_of_node {l r : Node} (hl : l.Huff) (hr : r.Huff) (c : Byte) (f : Nat) :
    2 ≤ (Node.mk c f l r).leaves.length := by
  rw [Node.leaves_node _ _ hl, List.length_append]
  have h1 := List.length_pos.2 hl.leaves_ne_nil
  have h2 := List.length_pos.2 hr.leaves_ne_nil
  omega

theorem buildHuffmanTree_replicate (pq : PriorityQueue) (o : MapOrder) (c : Byte) (n : Nat) :
    buildHuffmanTree pq o (List.replicate (n + 1) c)
      = Except.ok (Node.mk c (n + 1) Node.null Node.null) := by
  obtain ⟨t, ht, -, hH, hl⟩ := build_spec pq o (List.replicate (n + 1) c) (by simp)
  rw [freq_map_replicate] at hl
  rw [ht]
  cases hH with
  | leaf c1 f1 =>
    rw [Node.leaves_leaf] at hl
    have := List.perm_singleton.1 hl
    injection this with h1
    injection h1 with h2 h3
    rw [h2, h3]
  | @node l r hl1 hr1 =>
    have h2 := Node.Huff.two_le_of_node hl1 hr1 0 (l.freq + r.freq)
    rw [hl.length_eq] at h2
    simp at h2

theorem encodeText_replicate_nil (c : Byte) (m : CodeMap) (h : m c = some []) (k : Nat) :
    encodeText (List.replicate k c) m = Except.ok [] := by
  induction k with
  | zero => rfl
  | succ k ih => simp [List.replicate_succ, encodeText, h, ih]

/-! ## Optimality: weights and depths -/

namespace Node

theorem freq_mk (c : Byte) (f : Nat) (l r : Node) : (mk c f l r).freq = f := rfl

end Node

theorem encodeText_length (m : CodeMap) (text : List Byte) (e : List Bool)
    (h : encodeText text m = Except.ok e) : e.length = (text.map (codeLength m)).sum := by
  induction text generalizing e with
  | nil =>
    simp only [encodeText] at h
    injection h with h
    subst h
    rfl
  | cons x text ih =>
    simp only [encodeText] at h
    cases hx : m x with
    | none => simp [hx] at h
    | some code =>
      simp only [hx] at h
      cases hr : encodeText text m with
      | error err => simp [hr] at h
      | ok rest =>
        simp only [hr] at h
        injection h with h
        subst h
        simp [codeLength, hx, ih rest hr]

theorem sum_map_ite_eq (text : List Byte) (c : Byte) (g : Byte → Nat) :
    (text.map (fun x => if x ∈ [c] then g x else 0)).sum = text.count c * g c := by
  induction text with
  | nil => simp
  | cons y text ih =>
    rw [List.map_cons, List.sum_cons, ih, List.count_cons]
    by_cases h : y = c
    · subst h
      have : (if y ∈ [y] then g y else 0) = g y := by simp
      rw [this]
      simp only [beq_self_eq_true, if_true]
      ring
    · have : (if y ∈ [c] then g y else 0) = 0 := by simp [h]
      rw [this]
      simp [h]

theorem sum_map_ite_append (text : List Byte) (S1 S2 : List Byte) (g : Byte → Nat)
    (hdis : ∀ x, x ∈ S1 → x ∉ S2) :
    (text.map (fun x => if x ∈ S1 ++ S2 then g x else 0)).sum =
      (text.map (fun x => if x ∈ S1 then g x else 0)).sum +
      (text.map (fun x => if x ∈ S2 then g x else 0)).sum := by
  induction text with
  | nil => simp
  | cons y text ih =>
    rw [List.map_cons, List.sum_cons, ih, List.map_cons, List.sum_cons, List.map_cons,
      List.sum_cons]
    have hy : (if y ∈ S1 ++ S2 then g y else 0) =
        (if y ∈ S1 then g y else 0) + (if y ∈ S2 then g y else 0) := by
      by_cases h1 : y ∈ S1
      · have h2 := hdis y h1
        simp [h1, h2]
      · by_cases h2 : y ∈ S2
        · simp [h1, h2]
        · simp [h1, h2]
    rw [hy]
    omega

theorem Node.walk_leaf_mem (t : Node) :
    ∀ (p : List Bool) (c : Byte) (f : Nat), t.walk p = Node.mk c f Node.null Node.null →
      (c, f) ∈ t.leaves := by
  induction t with
  | null => intro p c f h; rw [Node.walk_null] at h; cases h
  | mk c0 f0 l r ihl ihr =>
    intro p c f h
    cases p with
    | nil =>
      simp only [Node.walk_nil] at h
      injection h with h1 h2 h3 h4
      subst h1 h2 h3 h4
      simp [Node.leaves_leaf]
    | cons b p =>
      simp only [Node.walk] at h
      by_cases hleaf : (l.isNull && r.isNull) = true
      · simp only [Bool.and_eq_true, Node.isNull_iff] at hleaf
        obtain ⟨rfl, rfl⟩ := hleaf
        cases b <;> simp [Node.walk_null] at h
      · simp only [Node.leaves, hleaf, if_false, List.mem_append, Bool.false_eq_true]
        cases b
        · exact Or.inl (ihl p c f (by simpa using h))
        · exact Or.inr (ihr p c f (by simpa using h))

/-- The bits the characters of the leaves of a tree take in the encoded text add up to
the weighted path length. -/
theorem sum_codeLength_eq_costAt (m : CodeMap) (text : List Byte) {t : Node} (ht : t.Huff) :
    ∀ pfx : List Bool, (t.leaves.map Prod.fst).Nodup →
      (∀ e ∈ t.leaves, e.2 = text.count e.1) →
      (∀ c ∈ text, c ∈ t.leaves.map Prod.fst → ∃ p f, m c = some (pfx ++ p) ∧
        t.walk p = Node.mk c f Node.null Node.null) →
      (text.map (fun x => if x ∈ t.leaves.map Prod.fst then codeLength m x else 0)).sum
        = Node.costAt pfx.length t := by
  induction ht with
  | leaf c f =>
    intro pfx _ hf hm
    have hfc : f = text.count c := hf (c, f) (by simp [Node.leaves_leaf])
    simp only [Node.leaves_leaf, List.map_cons, List.map_nil]
    rw [sum_map_ite_eq]
    show text.count c * codeLength m c = f * pfx.length
    rw [hfc]
    by_cases hc : c ∈ text
    · obtain ⟨p, f1, hmc, hw⟩ := hm c hc (by simp [Node.leaves_leaf])
      have hp : p = [] := by
        cases p with
        | nil => rfl
        | cons b p => cases b <;> simp [Node.walk, Node.walk_null] at hw
      subst hp
      simp [codeLength, hmc]
    · simp [List.count_eq_zero_of_not_mem hc]
  | @node l r hl hr ihl ihr =>
    intro pfx hnd hf hm
    rw [Node.leaves_node _ _ hl] at hnd hf hm ⊢
    rw [List.map_append] at hnd hm ⊢
    have hndl := (List.nodup_append.1 hnd).1
    have hndr := (List.nodup_append.1 hnd).2.1
    have hdis : ∀ x, x ∈ l.leaves.map Prod.fst → x ∉ r.leaves.map Prod.fst :=
      fun x h1 h2 => (List.nodup_append.1 hnd).2.2 h1 h2
    rw [sum_map_ite_append _ _ _ _ hdis]
    have hnotleaf : ∀ (p : List Bool) (c : Byte) (f : Nat),
        (Node.mk 0 (l.freq + r.freq) l r).walk p = Node.mk c f Node.null Node.null →
        ∃ b q, p = b :: q ∧ (if b = true then r else l).walk q = Node.mk c f Node.null Node.null := by
      intro p c f hw
      cases p with
      | nil =>
        simp only [Node.walk_nil] at hw
        injection hw with _ _ h3 _
        exact absurd h3 hl.ne_null
      | cons b q => exact ⟨b, q, rfl, by simpa [Node.walk] using hw⟩
    have e1 := ihl (pfx ++ [false]) hndl (fun e he => hf e (List.mem_append_left _ he))
      (by
        intro c hc hcl
        obtain ⟨p, f, hmc, hw⟩ := hm c hc (List.mem_append_left _ hcl)
        obtain ⟨b, q, rfl, hq⟩ := hnotleaf p c f hw
        cases b
        · exact ⟨q, f, by simpa using hmc, by simpa using hq⟩
        · exfalso
          have := Node.walk_leaf_mem r q c f (by simpa using hq)
          exact hdis c hcl (List.mem_map_of_mem Prod.fst this))
    have e2 := ihr (pfx ++ [true]) hndr (fun e he => hf e (List.mem_append_right _ he))
      (by
        intro c hc hcr
        obtain ⟨p, f, hmc, hw⟩ := hm c hc (List.mem_append_right _ hcr)
        obtain ⟨b, q, rfl, hq⟩ := hnotleaf p c f hw
        cases b
        · exfalso
          have := Node.walk_leaf_mem l q c f (by simpa using hq)
          exact hdis c (List.mem_map_of_mem Prod.fst this) hcr
        · exact ⟨q, f, by simpa using hmc, by simpa using hq⟩)
    rw [e1, e2]
    simp [Node.costAt, hl.isNull]

/-- The encoded text has as many bits as the weighted path length of the tree. -/
theorem encoded_length (text : List Byte) (t : Node) (e : List Bool) (ht : t.Huff)
    (hl : t.leaves.Perm (freq_map text))
    (he : encodeText text (generateCodes t [] CodeMap.empty) = Except.ok e) :
    e.length = t.weightedPathLength := by
  rw [encodeText_length _ _ _ he]
  have hsyms : ∀ c ∈ text, c ∈ t.leaves.map Prod.fst := by
    intro c hc
    rw [(hl.map Prod.fst).mem_iff]
    exact List.mem_map.2 ⟨(c, text.count c), (mem_freq_map text c _).2 ⟨hc, rfl⟩, rfl⟩
  have h1 := sum_codeLength_eq_costAt (generateCodes t [] CodeMap.empty) text ht []
    ((hl.map Prod.fst).nodup_iff.2 (freq_map_nodup text))
    (by
      rintro ⟨c, n⟩ hcn
      exact ((mem_freq_map text c n).1 (hl.subset hcn)).2)
    (by
      intro c hc _
      obtain ⟨code, hcode⟩ := encodeText_ok text _ e he c hc
      rcases generateCodes_some ht _ _ _ _ hcode with h | ⟨path, f, hp, hw⟩
      · simp [CodeMap.empty] at h
      · exact ⟨path, f, by rw [hcode, hp], hw⟩)
  rw [← show Node.costAt ([] : List Bool).length t = t.weightedPathLength from rfl, ← h1]
  apply congrArg
  apply List.map_congr_left
  intro x hx
  simp [hsyms x hx]

theorem encodeText_total (text : List Byte) (m : CodeMap)
    (h : ∀ c ∈ text, ∃ code, m c = some code) : ∃ e, encodeText text m = Except.ok e := by
  induction text with
  | nil => exact ⟨[], rfl⟩
  | cons x text ih =>
    obtain ⟨code, hx⟩ := h x (List.mem_cons_self _ _)
    obtain ⟨e, he⟩ := ih (fun c hc => h c (List.mem_cons_of_mem _ hc))
    exact ⟨code ++ e, by simp [encodeText, hx, he]⟩

/-- Compression returns for every non-empty text without the character `\0`. -/
theorem compressFile_total (pq : PriorityQueue) (o : MapOrder) (text : List Byte)
    (hne : text ≠ []) (h0 : (0 : Byte) ∉ text) :
    ∃ t e, buildHuffmanTree pq o text = Except.ok t ∧ t.Huff ∧ t.leaves.Perm (freq_map text) ∧
      encodeText text (generateCodes t [] CodeMap.empty) = Except.ok e ∧
      compressFile pq o text = Except.ok (getByteArray (padEncodedText e)) := by
  obtain ⟨t, ht, -, hH, hl⟩ := build_spec pq o text hne
  have hsyms : ∀ c, c ∈ t.leaves.map Prod.fst ↔ c ∈ text := by
    intro c
    rw [(hl.map Prod.fst).mem_iff]
    constructor
    · intro hc
      obtain ⟨⟨c1, n⟩, he, rfl⟩ := List.mem_map.1 hc
      exact ((mem_freq_map text c1 n).1 he).1
    · intro hc
      exact List.mem_map.2 ⟨(c, text.count c), (mem_freq_map text c _).2 ⟨hc, rfl⟩, rfl⟩
  have hnd : (t.leaves.map Prod.fst).Nodup :=
    (hl.map Prod.fst).nodup_iff.2 (freq_map_nodup text)
  obtain ⟨e, he⟩ := encodeText_total text (generateCodes t [] CodeMap.empty) (by
    intro c hc
    obtain ⟨path, f, hg, -⟩ := generateCodes_complete hH [] CodeMap.empty hnd
      (fun x hx hx0 => h0 (hx0 ▸ (hsyms x).1 hx)) c ((hsyms c).2 hc)
    exact ⟨_, hg⟩)
  exact ⟨t, e, ht, hH, hl, he, by simp only [compressFile, ht, he]⟩

theorem getByteArray_length (s : List Bool) : (getByteArray s).length = (s.length + 7) / 8 := by
  simp [getByteArray]

/-- The number of bytes `compressFile` writes for an encoded text. -/
theorem container_length (e : List Bool) :
    (getByteArray (padEncodedText e)).length = e.length / 8 + 2 := by
  rw [getByteArray_length, padEncodedText_length]
  unfold extraPadding
  omega

/-! ## Texts with the character `\0` -/

theorem generateCodes_zero (t : Node) :
    ∀ (pfx : List Bool) (m : CodeMap), generateCodes t pfx m 0 = m 0 := by
  induction t with
  | null => intro pfx m; rfl
  | mk ch f l r ihl ihr =>
    intro pfx m
    by_cases h0 : ch = 0
    · simp only [generateCodes, h0, ne_eq, not_true_eq_false, if_false]
      rw [ihr, ihl]
    · have h1 : ¬ (0 : Byte) = ch := fun e => h0 e.symm
      simp [generateCodes, h0, CodeMap.insert, h1]

theorem encodeText_missing (text : List Byte) (m : CodeMap) (c : Byte) (hc : c ∈ text)
    (hm : m c = none) : encodeText text m = Except.error Fault.outOfRange := by
  induction text with
  | nil => cases hc
  | cons x text ih =>
    simp only [encodeText]
    cases hx : m x with
    | none => rfl
    | some code =>
      rcases List.mem_cons.1 hc with rfl | hc
      · rw [hm] at hx; cases hx
      · simp only [ih hc]

/-- For a text that holds the character `\0` the lookup `code_map.at` throws. -/
theorem main_zero (pq : PriorityQueue) (o : MapOrder) (text : List Byte)
    (h0 : (0 : Byte) ∈ text) : main pq o text = Except.error Fault.outOfRange := by
  obtain ⟨t, ht, -, -, -⟩ := build_spec pq o text (List.ne_nil_of_mem h0)
  have he := encodeText_missing text (generateCodes t [] CodeMap.empty) 0 h0
    (by rw [generateCodes_zero]; rfl)
  simp only [main, compressFile, ht, he]

/-! ## The shape of the tree -/

namespace Node

theorem Huff.isFull {t : Node} (h : t.Huff) : t.isFull = true := by
  induction h with
  | leaf c f => rfl
  | @node l r hl hr ihl ihr => simp [Node.isFull, hl.isNull, hr.isNull, ihl, ihr]

theorem Huff.internalCount {t : Node} (h : t.Huff) :
    t.internalCount + 1 = t.leaves.length := by
  induction h with
  | leaf c f => rfl
  | @node l r hl hr ihl ihr =>
    rw [leaves_node _ _ hl, List.length_append]
    simp only [Node.internalCount, hl.isNull, Bool.false_and, if_false, Bool.false_eq_true]
    omega

theorem Huff.freqSums {t : Node} (h : t.Huff) : t.freqSums = true := by
  induction h with
  | leaf c f => rfl
  | @node l r hl hr ihl ihr => simp [Node.freqSums, hl.isNull, ihl, ihr]

/-- In a tree of the merge loop the `freq` of the root is the sum of the `freq` of
the leaves. -/
theorem Huff.freq_eq_sum {t : Node} (h : t.Huff) : t.freq = (t.leaves.map Prod.snd).sum := by
  induction h with
  | leaf c f => simp [leaves_leaf, freq_mk]
  | @node l r hl hr ihl ihr =>
    rw [leaves_node _ _ hl, List.map_append, List.sum_append, freq_mk, ihl, ihr]

end Node

theorem incr_sum (ch : Byte) (m : List (Byte × Nat)) :
    ((incr ch m).map Prod.snd).sum = (m.map Prod.snd).sum + 1 := by
  induction m with
  | nil => simp [incr]
  | cons e m ih =>
    obtain ⟨k, n⟩ := e
    by_cases hk : k = ch
    · simp [incr, hk]; omega
    · simp [incr, hk, ih]; omega

/-- The counts of the frequency map add up to the length of the text. -/
theorem freq_map_sum (text : List Byte) : ((freq_map text).map Prod.snd).sum = text.length := by
  have key : ∀ (t : List Byte) (m : List (Byte × Nat)),
      ((t.foldl (fun m ch => incr ch m) m).map Prod.snd).sum
        = (m.map Prod.snd).sum + t.length := by
    intro t
    induction t with
    | nil => intro m; simp
    | cons c t ih =>
      intro m
      rw [List.foldl_cons, ih, incr_sum, List.length_cons]
      omega
  simpa [freq_map] using key text []

/-! ## Decoding is total on full trees -/

/-- One step of the decode loop from a node with two children in a full tree: no
fault, and the next current node is again a node with two children of a full tree,
or the root. -/
theorem decodeStep_total (T : Node) (bit : Bool) (out : List Byte) (cur : Node)
    (hn : cur.isNull = false) (hl : cur.isLeaf = false) (hf : cur.isFull = true) :
    ∃ out1 cur1, decodeStep T bit (out, cur) = Except.ok (out1, cur1) ∧
      (cur1 = T ∨ (cur1.isNull = false ∧ cur1.isLeaf = false ∧ cur1.isFull = true)) := by
  cases cur with
  | null => simp [Node.isNull] at hn
  | mk c f l r =>
    simp only [Node.isFull, Bool.and_eq_true, beq_iff_eq] at hf
    obtain ⟨⟨hlr, hfl⟩, hfr⟩ := hf
    have hl0 : l.isNull = false := by
      cases hh : l.isNull with
      | false => rfl
      | true =>
        rw [hh] at hlr
        simp [Node.isLeaf, hh, ← hlr] at hl
    have hr0 : r.isNull = false := by rw [← hlr]; exact hl0
    have hnext : (if bit = true then r else l).isNull = false ∧
        (if bit = true then r else l).isFull = true := by
      cases bit
      · exact ⟨by simpa using hl0, by simpa using hfl⟩
      · exact ⟨by simpa using hr0, by simpa using hfr⟩
    cases hx : (if bit = true then r else l) with
    | null => rw [hx] at hnext; simp [Node.isNull] at hnext
    | mk c1 f1 l1 r1 =>
      rw [hx] at hnext
      by_cases hleaf : (l1.isNull && r1.isNull) = true
      · exact ⟨out ++ [c1], T, by simp [decodeStep, hx, hleaf], Or.inl rfl⟩
      · refine ⟨out, Node.mk c1 f1 l1 r1, by simp [decodeStep, hx, hleaf], Or.inr ⟨rfl, ?_, hnext.2⟩⟩
        simpa [Node.isLeaf] using hleaf

theorem decodeLoop_total (T : Node) (hn : T.isNull = false) (hl : T.isLeaf = false)
    (hf : T.isFull = true) :
    ∀ (bits : List Bool) (out : List Byte) (cur : Node),
      cur.isNull = false → cur.isLeaf = false → cur.isFull = true →
      ∃ st, decodeLoop T bits (out, cur) = Except.ok st := by
  intro bits
  induction bits with
  | nil => intro out cur _ _ _; exact ⟨_, rfl⟩
  | cons b bits ih =>
    intro out cur h1 h2 h3
    obtain ⟨out1, cur1, hs, hc⟩ := decodeStep_total T b out cur h1 h2 h3
    simp only [decodeLoop, hs]
    rcases hc with rfl | ⟨k1, k2, k3⟩
    · exact ih out1 cur1 hn hl hf
    · exact ih out1 cur1 k1 k2 k3

theorem decodeText_total (T : Node) (hn : T.isNull = false) (hl : T.isLeaf = false)
    (hf : T.isFull = true) (bits : List Bool) : ∃ out, decodeText bits T = Except.ok out := by
  obtain ⟨st, hst⟩ := decodeLoop_total T hn hl hf bits [] T hn hl hf
  exact ⟨st.1, by simp [decodeText, hst]⟩

/-! ## Leaves and paths -/

theorem Node.mem_leaves_walk (t : Node) :
    ∀ (c : Byte) (f : Nat), (c, f) ∈ t.leaves →
      ∃ p, t.walk p = Node.mk c f Node.null Node.null := by
  induction t with
  | null => intro c f h; cases h
  | mk c0 f0 l r ihl ihr =>
    intro c f h
    by_cases hleaf : (l.isNull && r.isNull) = true
    · simp only [Node.leaves, hleaf, if_true, List.mem_singleton, Prod.mk.injEq] at h
      simp only [Bool.and_eq_true, Node.isNull_iff] at hleaf
      obtain ⟨rfl, rfl⟩ := hleaf
      obtain ⟨rfl, rfl⟩ := h
      exact ⟨[], by simp⟩
    · simp only [Node.leaves, hleaf, if_false, List.mem_append, Bool.false_eq_true] at h
      rcases h with h | h
      · obtain ⟨p, hp⟩ := ihl c f h
        exact ⟨false :: p, by simpa [Node.walk] using hp⟩
      · obtain ⟨p, hp⟩ := ihr c f h
        exact ⟨true :: p, by simpa [Node.walk] using hp⟩

/-- In a tree of the merge loop whose leaves carry different characters, a character
has one path only. -/
theorem Node.Huff.leaf_path_unique {t : Node} (ht : t.Huff) :
    (t.leaves.map Prod.fst).Nodup →
    ∀ (p p1 : List Bool) (c : Byte) (f f1 : Nat),
      t.walk p = Node.mk c f Node.null Node.null →
      t.walk p1 = Node.mk c f1 Node.null Node.null → p1 = p := by
  induction ht with
  | leaf ch fl =>
    intro _ p p1 c f f1 hw hw1
    have e1 : p = [] := by
      cases p with
      | nil => rfl
      | cons b q => cases b <;> simp [Node.walk, Node.walk_null] at hw
    have e2 : p1 = [] := by
      cases p1 with
      | nil => rfl
      | cons b q => cases b <;> simp [Node.walk, Node.walk_null] at hw1
    rw [e1, e2]
  | @node l r hl hr ihl ihr =>
    intro hnd p p1 c f f1 hw hw1
    rw [Node.leaves_node _ _ hl, List.map_append] at hnd
    have hndl := (List.nodup_append.1 hnd).1
    have hndr := (List.nodup_append.1 hnd).2.1
    have hdis := (List.nodup_append.1 hnd).2.2
    have inl : ∀ (q : List Bool) (g : Nat), l.walk q = Node.mk c g Node.null Node.null →
        c ∈ l.leaves.map Prod.fst :=
      fun q g h => List.mem_map.2 ⟨(c, g), Node.walk_leaf_mem l q c g h, rfl⟩
    have inr : ∀ (q : List Bool) (g : Nat), r.walk q = Node.mk c g Node.null Node.null →
        c ∈ r.leaves.map Prod.fst :=
      fun q g h => List.mem_map.2 ⟨(c, g), Node.walk_leaf_mem r q c g h, rfl⟩
    cases p with
    | nil =>
      simp only [Node.walk_nil] at hw
      injection hw with _ _ h3 _
      exact absurd h3 hl.ne_null
    | cons b q =>
      cases p1 with
      | nil =>
        simp only [Node.walk_nil] at hw1
        injection hw1 with _ _ h3 _
        exact absurd h3 hl.ne_null
      | cons b1 q1 =>
        simp only [Node.walk] at hw hw1
        cases b <;> cases b1
        · simp only [Bool.false_eq_true, if_false] at hw hw1
          rw [ihl hndl q q1 c f f1 hw hw1]
        · exfalso
          simp only [Bool.false_eq_true, if_false, if_true] at hw hw1
          exact hdis (inl q f hw) (inr q1 f1 hw1)
        · exfalso
          simp only [Bool.false_eq_true, if_false, if_true] at hw hw1
          exact hdis (inl q1 f1 hw1) (inr q f hw)
        · simp only [if_true] at hw hw1
          rw [ihr hndr q q1 c f f1 hw hw1]

/-- In a tree of the merge loop whose leaves carry different characters, none of
them `\0`, `generateCodes` records for every leaf its path from the root. -/
theorem generateCodes_walk {t : Node} (ht : t.Huff) (pfx : List Bool) (m : CodeMap)
    (hnd : (t.leaves.map Prod.fst).Nodup) (h0 : ∀ c ∈ t.leaves.map Prod.fst, c ≠ 0)
    (p : List Bool) (c : Byte) (f : Nat) (hw : t.walk p = Node.mk c f Node.null Node.null) :
    generateCodes t pfx m c = some (pfx ++ p) := by
  have hmem : c ∈ t.leaves.map Prod.fst :=
    List.mem_map.2 ⟨(c, f), Node.walk_leaf_mem t p c f hw, rfl⟩
  obtain ⟨p1, f1, hg, hw1⟩ := generateCodes_complete ht pfx m hnd h0 c hmem
  rw [hg, ht.leaf_path_unique hnd p p1 c f f1 hw hw1]

/-! ## Texts of two characters -/

theorem Node.Huff.leaf_of_length_one {t : Node} (ht : t.Huff) (h : t.leaves.length = 1) :
    ∃ c f, t = Node.mk c f Node.null Node.null := by
  cases ht with
  | leaf c f => exact ⟨c, f, rfl⟩
  | @node l r hl hr =>
    have := Node.Huff.two_le_of_node hl hr 0 (l.freq + r.freq)
    omega

/-- In a tree of the merge loop with two leaves the weighted path length is the
`freq` of the root. -/
theorem Node.Huff.weightedPathLength_two {t : Node} (ht : t.Huff) (h : t.leaves.length = 2) :
    t.weightedPathLength = t.freq := by
  cases ht with
  | leaf c f => simp [Node.leaves_leaf] at h
  | @node l r hl hr =>
    rw [Node.leaves_node _ _ hl, List.length_append] at h
    have h1 := List.length_pos.2 hl.leaves_ne_nil
    have h2 := List.length_pos.2 hr.leaves_ne_nil
    obtain ⟨c1, f1, rfl⟩ := hl.leaf_of_length_one (by omega)
    obtain ⟨c2, f2, rfl⟩ := hr.leaf_of_length_one (by omega)
    show f1 * (0 + 1) + f2 * (0 + 1) = f1 + f2
    omega

theorem freq_map_two (text : List Byte) (a b : Byte) (hab : a ≠ b) (ha : a ∈ text)
    (hb : b ∈ text) (hall : ∀ x ∈ text, x = a ∨ x = b) : (freq_map text).length = 2 := by
  have hp : ((freq_map text).map Prod.fst).Perm [a, b] := by
    refine (List.perm_ext_iff_of_nodup (freq_map_nodup text) (by simp [hab])).2 ?_
    intro x
    constructor
    · intro hx
      obtain ⟨⟨c, n⟩, he, rfl⟩ := List.mem_map.1 hx
      have := hall c ((mem_freq_map text c n).1 he).1
      simpa using this
    · intro hx
      have hx' : x ∈ text := by
        rcases List.mem_cons.1 hx with rfl | hx
        · exact ha
        · rw [List.mem_singleton.1 hx]; exact hb
      exact List.mem_map.2 ⟨(x, text.count x), (mem_freq_map text x _).2 ⟨hx', rfl⟩, rfl⟩
  simpa using hp.length_eq

theorem two_le_length (text : List Byte) (a b : Byte) (hab : a ≠ b) (ha : a ∈ text)
    (hb : b ∈ text) : 2 ≤ text.length := by
  match text, ha, hb with
  | [x], ha, hb =>
    exfalso
    simp only [List.mem_singleton] at ha hb
    exact hab (ha.trans hb.symm)
  | _ :: _ :: _, _, _ => simp

/-- The bytes `compressFile` writes for a text of two different characters, none of
them `\0`: one bit for every character of the text. -/
theorem compressFile_two (pq : PriorityQueue) (o : MapOrder) (text : List Byte) (a b : Byte)
    (hab : a ≠ b) (ha0 : a ≠ 0) (hb0 : b ≠ 0) (ha : a ∈ text) (hb : b ∈ text)
    (hall : ∀ x ∈ text, x = a ∨ x = b) :
    ∃ bytes, compressFile pq o text = Except.ok bytes ∧
      bytes.length = text.length / 8 + 2 := by
  have h0 : (0 : Byte) ∉ text := by
    intro h
    rcases hall 0 h with h | h
    · exact ha0 h.symm
    · exact hb0 h.symm
  obtain ⟨t, e, -, hH, hl, he, hc⟩ := compressFile_total pq o text (List.ne_nil_of_mem ha) h0
  refine ⟨_, hc, ?_⟩
  rw [container_length, encoded_length text t e hH hl he,
    hH.weightedPathLength_two (by rw [hl.length_eq]; exact freq_map_two text a b hab ha hb hall),
    hH.freq_eq_sum, (hl.map Prod.snd).sum_eq, freq_map_sum]

/-! ## The Kraft sum -/

theorem kraft_leaves (M : CodeMap) {t : Node} (ht : t.Huff) :
    ∀ pfx : List Bool,
      (∀ (p : List Bool) (c : Byte) (f : Nat),
        t.walk p = Node.mk c f Node.null Node.null → M c = some (pfx ++ p)) →
      ((t.leaves.map Prod.fst).map (fun c =>
        match M c with
        | some code => (1 / 2 : ℚ) ^ code.length
        | none => 0)).sum = (1 / 2 : ℚ) ^ pfx.length := by
  induction ht with
  | leaf c f =>
    intro pfx h
    have := h [] c f (by simp)
    simp [Node.leaves_leaf, this]
  | @node l r hl hr ihl ihr =>
    intro pfx h
    rw [Node.leaves_node _ _ hl, List.map_append, List.map_append, List.sum_append]
    rw [ihl (pfx ++ [false]) (fun p c f hw => by
        have := h (false :: p) c f (by simpa [Node.walk] using hw)
        simpa using this),
      ihr (pfx ++ [true]) (fun p c f hw => by
        have := h (true :: p) c f (by simpa [Node.walk] using hw)
        simpa using this)]
    simp only [List.length_append, List.length_singleton, pow_succ]
    ring

/-- The Kraft equality of the code table of a non-empty text without the character
`\0`. -/
theorem kraft_equality (pq : PriorityQueue) (o : MapOrder) (text : List Byte)
    (hne : text ≠ []) (h0 : (0 : Byte) ∉ text) :
    ∃ t, buildHuffmanTree pq o text = Except.ok t ∧
      kraftSum (generateCodes t [] CodeMap.empty) text = 1 := by
  obtain ⟨t, ht, -, hH, hl⟩ := build_spec pq o text hne
  refine ⟨t, ht, ?_⟩
  have hnd : (t.leaves.map Prod.fst).Nodup :=
    (hl.map Prod.fst).nodup_iff.2 (freq_map_nodup text)
  have hsyms : ∀ c, c ∈ t.leaves.map Prod.fst ↔ c ∈ text := by
    intro c
    rw [(hl.map Prod.fst).mem_iff]
    constructor
    · intro hc
      obtain ⟨⟨c1, n⟩, he, rfl⟩ := List.mem_map.1 hc
      exact ((mem_freq_map text c1 n).1 he).1
    · intro hc
      exact List.mem_map.2 ⟨(c, text.count c), (mem_freq_map text c _).2 ⟨hc, rfl⟩, rfl⟩
  have hp : text.dedup.Perm (t.leaves.map Prod.fst) :=
    (List.perm_ext_iff_of_nodup (List.nodup_dedup text) hnd).2
      (fun c => by rw [List.mem_dedup, hsyms])
  unfold kraftSum
  rw [(hp.map _).sum_eq]
  have := kraft_leaves (generateCodes t [] CodeMap.empty) hH []
    (fun p c f hw => generateCodes_walk hH [] CodeMap.empty hnd
      (fun x hx hx0 => h0 (hx0 ▸ (hsyms x).1 hx)) p c f hw)
  simpa using this

/-! ## The range of the frequencies -/

theorem Node.freqLe_mono {B B1 : Nat} (h : B ≤ B1) (t : Node) (ht : t.freqLe B = true) :
    t.freqLe B1 = true := by
  induction t with
  | null => rfl
  | mk c f l r ihl ihr =>
    simp only [Node.freqLe, Bool.and_eq_true, decide_eq_true_eq] at ht ⊢
    exact ⟨⟨Nat.le_trans ht.1.1 h, ihl ht.1.2⟩, ihr ht.2⟩

/-- In a tree of the merge loop no `freq` is above the `freq` of the root. -/
theorem Node.Huff.freqLe {t : Node} (h : t.Huff) : t.freqLe t.freq = true := by
  induction h with
  | leaf c f => simp [Node.freqLe, Node.freq_mk]
  | @node l r hl hr ihl ihr =>
    simp only [Node.freqLe, Node.freq_mk, Bool.and_eq_true, decide_eq_true_eq]
    exact ⟨⟨Nat.le_refl _, Node.freqLe_mono (Nat.le_add_right _ _) l ihl⟩,
      Node.freqLe_mono (Nat.le_add_left _ _) r ihr⟩

/-! # The claims -/

/-- C1 (the code falls short of the claim).  The round trip of `main` fails for a
text of one repeated character: for every queue implementation, every iteration
order and every `n`, the text of `n + 1` characters `a` is compressed to the two
bytes `8, 0` and decompressed to the empty text.  It also fails for every text that
holds the character `\0`, with `std::out_of_range`, and for the empty text, where
the top of an empty queue is read. -/
theorem C1_round_trip_fails (pq : PriorityQueue) (o : MapOrder) (n : Nat) :
    compressFile pq o (List.replicate (n + 1) 97) = Except.ok [8, 0] ∧
    main pq o (List.replicate (n + 1) 97) = Except.ok [] ∧
    (∀ text : List Byte, (0 : Byte) ∈ text →
      main pq o text = Except.error Fault.outOfRange) ∧
    main pq o [] = Except.error Fault.emptyQueue := by
  have hb := buildHuffmanTree_replicate pq o 97 n
  have he : encodeText (List.replicate (n + 1) 97)
      (generateCodes (Node.mk 97 (n + 1) Node.null Node.null) [] CodeMap.empty)
        = Except.ok [] :=
    encodeText_replicate_nil 97 _ rfl (n + 1)
  have hc : compressFile pq o (List.replicate (n + 1) 97) = Except.ok [8, 0] := by
    simp only [compressFile, hb, he]
    rfl
  refine ⟨hc, ?_, fun text h0 => main_zero pq o text h0, ?_⟩
  · simp only [main, hc, hb]
    rfl
  · have hnil : o.enum [] = [] := List.Perm.eq_nil (o.perm [])
    simp [main, compressFile, buildHuffmanTree, freq_map, hnil, pushLeaves, mergeLoop]

/-- C3.  For every text with at least two distinct characters both programs build
the same tree, and in the code table `generateCodes` derives from it, and likewise
in the one `encode` derives from it, the code of one character is never an initial
segment of the code of a different character. -/
theorem C3_prefix_free (pq : PriorityQueue) (o : MapOrder) (text : List Byte)
    (h2 : ∃ a ∈ text, ∃ b ∈ text, a ≠ b) :
    ∃ t, buildHuffmanTree pq o text = Except.ok t ∧ Demo.huffmanTree pq o text = Except.ok t ∧
      (∀ c1 c2 code1 code2, c1 ≠ c2 →
        generateCodes t [] CodeMap.empty c1 = some code1 →
        generateCodes t [] CodeMap.empty c2 = some code2 → ¬ code1 <+: code2) ∧
      (∀ c1 c2 code1 code2, c1 ≠ c2 →
        Demo.encode t [] CodeMap.empty c1 = some code1 →
        Demo.encode t [] CodeMap.empty c2 = some code2 → ¬ code1 <+: code2) := by
  obtain ⟨a, ha, -⟩ := h2
  obtain ⟨t, ht, htd, hH, -⟩ := build_spec pq o text (List.ne_nil_of_mem ha)
  refine ⟨t, ht, htd, ?_, ?_⟩
  · intro c1 c2 code1 code2 hne h1 h2 hp
    rcases generateCodes_some hH _ _ _ _ h1 with h | ⟨p1, f1, hc1, hw1⟩
    · simp [CodeMap.empty] at h
    rcases generateCodes_some hH _ _ _ _ h2 with h | ⟨p2, f2, hc2, hw2⟩
    · simp [CodeMap.empty] at h
    simp only [List.nil_append] at hc1 hc2
    subst hc1 hc2
    exact hne (Node.leaf_walk_unique t _ _ _ _ _ _ hw1 hw2 hp).1
  · intro c1 c2 code1 code2 hne h1 h2 hp
    rcases encode_some t _ _ _ _ h1 with h | ⟨p1, f1, hc1, hw1⟩
    · simp [CodeMap.empty] at h
    rcases encode_some t _ _ _ _ h2 with h | ⟨p2, f2, hc2, hw2⟩
    · simp [CodeMap.empty] at h
    simp only [List.nil_append] at hc1 hc2
    subst hc1 hc2
    exact hne (Node.leaf_walk_unique t _ _ _ _ _ _ hw1 hw2 hp).1

/-- C3 at the text `ab`. -/
theorem C3_prefix_free_witness :
    (∃ a ∈ ([97, 98] : List Byte), ∃ b ∈ ([97, 98] : List Byte), a ≠ b) ∧
    ∃ t, buildHuffmanTree sortedQueue insertionOrder [97, 98] = Except.ok t ∧
      Demo.huffmanTree sortedQueue insertionOrder [97, 98] = Except.ok t ∧
      (∀ c1 c2 code1 code2, c1 ≠ c2 →
        generateCodes t [] CodeMap.empty c1 = some code1 →
        generateCodes t [] CodeMap.empty c2 = some code2 → ¬ code1 <+: code2) ∧
      (∀ c1 c2 code1 code2, c1 ≠ c2 →
        Demo.encode t [] CodeMap.empty c1 = some code1 →
        Demo.encode t [] CodeMap.empty c2 = some code2 → ¬ code1 <+: code2) :=
  ⟨⟨97, by decide, 98, by decide, by decide⟩,
   C3_prefix_free sortedQueue insertionOrder [97, 98] ⟨97, by decide, 98, by decide, by decide⟩⟩

/-- C5 (the code falls short of the claim).  For a text of `n + 1` characters `a`
the tree is the single leaf, `generateCodes` records the empty string as the code
of `a`, not the string `0`, and the encoded text has no bit at all. -/
theorem C5_single_symbol_code_is_empty (pq : PriorityQueue) (o : MapOrder) (n : Nat) :
    buildHuffmanTree pq o (List.replicate (n + 1) 97)
      = Except.ok (Node.mk 97 (n + 1) Node.null Node.null) ∧
    generateCodes (Node.mk 97 (n + 1) Node.null Node.null) [] CodeMap.empty 97 = some [] ∧
    encodeText (List.replicate (n + 1) 97)
      (generateCodes (Node.mk 97 (n + 1) Node.null Node.null) [] CodeMap.empty)
        = Except.ok [] :=
  ⟨buildHuffmanTree_replicate pq o 97 n, rfl, encodeText_replicate_nil 97 _ rfl (n + 1)⟩

/-- C6 (the code falls short of the claim).  For the empty text `buildHuffmanTree`
reads the top of the empty queue, so `compressFile` and `main` do not return; the
demo pops from the empty queue. -/
theorem C6_empty_input_reads_empty_queue (pq : PriorityQueue) (o : MapOrder) :
    buildHuffmanTree pq o [] = Except.error Fault.emptyQueue ∧
    compressFile pq o [] = Except.error Fault.emptyQueue ∧
    main pq o [] = Except.error Fault.emptyQueue ∧
    Demo.buildHuffmanTree pq o [] = Except.error Fault.emptyQueue := by
  have hnil : o.enum [] = [] := List.Perm.eq_nil (o.perm [])
  have h1 : buildHuffmanTree pq o [] = Except.error Fault.emptyQueue := by
    simp [buildHuffmanTree, freq_map, hnil, pushLeaves, mergeLoop]
  have h2 : compressFile pq o [] = Except.error Fault.emptyQueue := by
    simp [compressFile, h1]
  refine ⟨h1, h2, ?_, ?_⟩
  · simp [main, h2]
  · simp [Demo.buildHuffmanTree, Demo.huffmanTree, freq_map, hnil, pushLeaves,
      Demo.mergeLoop, mergeStep]

/-- C7, the claim as stated fails.  In the tree of the text `cabbccc` (codes
`a = 00`, `b = 01`, `c = 1`) the bit string `10` ends in the middle of a code, on
the internal node above `a` and `b`; `decodeText` returns `c` and no error.  These
are the bits left of the file `6, 139, 192` that `compressFile` writes for the text
when its last byte is dropped: `decompressFile` returns `c`. -/
theorem C7_counterexample :
    buildHuffmanTree sortedQueue insertionOrder [99, 97, 98, 98, 99, 99, 99] =
      Except.ok (Node.mk 0 7
        (Node.mk 0 3 (Node.mk 97 1 Node.null Node.null) (Node.mk 98 2 Node.null Node.null))
        (Node.mk 99 4 Node.null Node.null)) ∧
    decodeLoop (Node.mk 0 7
        (Node.mk 0 3 (Node.mk 97 1 Node.null Node.null) (Node.mk 98 2 Node.null Node.null))
        (Node.mk 99 4 Node.null Node.null)) [true, false]
      ([], Node.mk 0 7
        (Node.mk 0 3 (Node.mk 97 1 Node.null Node.null) (Node.mk 98 2 Node.null Node.null))
        (Node.mk 99 4 Node.null Node.null)) =
      Except.ok ([99],
        Node.mk 0 3 (Node.mk 97 1 Node.null Node.null) (Node.mk 98 2 Node.null Node.null)) ∧
    decodeText [true, false] (Node.mk 0 7
        (Node.mk 0 3 (Node.mk 97 1 Node.null Node.null) (Node.mk 98 2 Node.null Node.null))
        (Node.mk 99 4 Node.null Node.null)) = Except.ok [99] ∧
    compressFile sortedQueue insertionOrder [99, 97, 98, 98, 99, 99, 99]
      = Except.ok [6, 139, 192] ∧
    decompressFile [6, 139] (Node.mk 0 7
        (Node.mk 0 3 (Node.mk 97 1 Node.null Node.null) (Node.mk 98 2 Node.null Node.null))
        (Node.mk 99 4 Node.null Node.null)) = Except.ok [99] :=
  ⟨rfl, rfl, rfl, rfl, rfl⟩

/-- C7, amended: a bit string that stops in the middle of a code is decoded without
an error, and the bits of the unfinished code are dropped.  When the walk over
`bits1` ends at a fresh restart from the root with output `out`, and `bits2` leads
from the root to a node that has a child, then `decodeText` returns `out` for
`bits1 ++ bits2`, the walk ending on that node. -/
theorem C7_unfinished_code_is_dropped (T : Node) (bits1 bits2 : List Bool) (out : List Byte)
    (h1 : decodeLoop T bits1 ([], T) = Except.ok (out, T))
    (hn : (T.walk bits2).isNull = false) (hl : (T.walk bits2).isLeaf = false) :
    decodeLoop T (bits1 ++ bits2) ([], T) = Except.ok (out, T.walk bits2) ∧
    decodeText (bits1 ++ bits2) T = Except.ok out := by
  have h := decodeLoop_append T bits1 bits2 _ _ h1
  rw [decodeLoop_unfinished T out bits2 T hn hl] at h
  exact ⟨h, by simp [decodeText, h]⟩

/-- C7, amended, at the tree of `cabbccc` and the bits `1` and `0`. -/
theorem C7_unfinished_code_is_dropped_witness :
    decodeText ([true] ++ [false]) (Node.mk 0 7
        (Node.mk 0 3 (Node.mk 97 1 Node.null Node.null) (Node.mk 98 2 Node.null Node.null))
        (Node.mk 99 4 Node.null Node.null)) = Except.ok [99] :=
  (C7_unfinished_code_is_dropped (Node.mk 0 7
        (Node.mk 0 3 (Node.mk 97 1 Node.null Node.null) (Node.mk 98 2 Node.null Node.null))
        (Node.mk 99 4 Node.null Node.null)) [true] [false] [99] rfl rfl rfl).2

/-- C9, the claim as stated fails: for the empty bit string, of length `0`, the
padding count is `8`, not `(8 - 0 mod 8) mod 8 = 0`, and `padEncodedText` returns
the info byte `00001000` followed by eight padding bits. -/
theorem C9_counterexample :
    extraPadding [] = 8 ∧ (8 - ([] : List Bool).length % 8) % 8 = 0 ∧
    extraPadding [] ≠ (8 - ([] : List Bool).length % 8) % 8 ∧ ¬ extraPadding [] ≤ 7 ∧
    padEncodedText [] = [false, false, false, false, true, false, false, false,
      false, false, false, false, false, false, false, false] := by
  decide

/-- C9, amended: for every encoded bit string of length `L` the padding count that
`padEncodedText` records and appends is `8 - L mod 8`; it lies in `1..8`, it is `8`
when `L` is a multiple of 8, and it is `(8 - L mod 8) mod 8` otherwise. -/
theorem C9_padding_count (e : List Bool) :
    extraPadding e = 8 - e.length % 8 ∧
    1 ≤ extraPadding e ∧ extraPadding e ≤ 8 ∧
    (e.length % 8 = 0 → extraPadding e = 8) ∧
    (e.length % 8 ≠ 0 → extraPadding e = (8 - e.length % 8) % 8) ∧
    bitsToNat ((padEncodedText e).take 8) = extraPadding e ∧
    (padEncodedText e).drop 8 = e ++ List.replicate (extraPadding e) false := by
  have hr := extraPadding_range e
  refine ⟨rfl, hr.1, hr.2, ?_, ?_, ?_, ?_⟩
  · intro h; unfold extraPadding; omega
  · intro h; unfold extraPadding; omega
  · have htake : (padEncodedText e).take 8 = bitset8 (extraPadding e) := by
      simp only [padEncodedText, List.append_assoc]
      rw [List.take_left' (bitset8_length _)]
    rw [htake, bitsToNat_bitset8 _ hr.2]
  · simp only [padEncodedText, List.append_assoc]
    rw [List.drop_left' (bitset8_length _)]

/-- C10 (the code falls short of the claim).  The decode loop of the demo stops one
symbol early when the code of the last character has one bit: for the text `aab`
the encoded string is `110` and the decoded string is `aa`; for `ab` it is `a`. -/
theorem C10_demo_loop_stops_early :
    Demo.buildHuffmanTree sortedQueue insertionOrder [97, 97, 98]
      = Except.ok ([true, true, false], [97, 97]) ∧
    Demo.buildHuffmanTree sortedQueue insertionOrder [97, 98]
      = Except.ok ([false, true], [97]) :=
  ⟨rfl, rfl⟩

/-- C11.  For every text made of exactly two different characters, none of them
`\0`, `compressFile` returns, and the bytes it writes after the leading
padding-info byte, one bit for every character rounded up to whole bytes plus the
padding, are fewer than the characters of the text. -/
theorem C11_two_symbol_payload_is_smaller (pq : PriorityQueue) (o : MapOrder)
    (text : List Byte) (a b : Byte) (hab : a ≠ b) (ha0 : a ≠ 0) (hb0 : b ≠ 0)
    (ha : a ∈ text) (hb : b ∈ text) (hall : ∀ x ∈ text, x = a ∨ x = b) :
    ∃ bytes, compressFile pq o text = Except.ok bytes ∧
      (bytes.drop 1).length = text.length / 8 + 1 ∧
      (bytes.drop 1).length < text.length := by
  obtain ⟨bytes, hc, hlen⟩ := compressFile_two pq o text a b hab ha0 hb0 ha hb hall
  have h2 := two_le_length text a b hab ha hb
  refine ⟨bytes, hc, ?_, ?_⟩
  · rw [List.length_drop, hlen]; omega
  · rw [List.length_drop, hlen]; omega

/-- C11 at the text `aaaaaaaab`: the file is `7, 255, 0`, two payload bytes for
nine characters. -/
theorem C11_two_symbol_payload_is_smaller_witness :
    compressFile sortedQueue insertionOrder [97, 97, 97, 97, 97, 97, 97, 97, 98]
      = Except.ok [7, 255, 0] ∧
    ∃ bytes, compressFile sortedQueue insertionOrder [97, 97, 97, 97, 97, 97, 97, 97, 98]
        = Except.ok bytes ∧
      (bytes.drop 1).length = ([97, 97, 97, 97, 97, 97, 97, 97, 98] : List Byte).length / 8 + 1 ∧
      (bytes.drop 1).length < ([97, 97, 97, 97, 97, 97, 97, 97, 98] : List Byte).length :=
  ⟨rfl, C11_two_symbol_payload_is_smaller sortedQueue insertionOrder
    [97, 97, 97, 97, 97, 97, 97, 97, 98] 97 98 (by decide) (by decide) (by decide)
    (by simp) (by simp) (by simp)⟩

/-- C12 (the code falls short of the claim).  For the text `\0 a` the tree has the
two leaves `\0` and `a`, `generateCodes` records the code `1` for `a` and no code
for `\0`, and the Kraft sum over the codes of the distinct characters is `1/2`, not
`1`.  For every text that holds the character `\0` there is no code for it. -/
theorem C12_kraft_sum_with_zero_byte :
    (buildHuffmanTree sortedQueue insertionOrder [0, 97] =
      Except.ok (Node.mk 0 2 (Node.mk 0 1 Node.null Node.null)
        (Node.mk 97 1 Node.null Node.null)) ∧
     generateCodes (Node.mk 0 2 (Node.mk 0 1 Node.null Node.null)
        (Node.mk 97 1 Node.null Node.null)) [] CodeMap.empty 0 = none ∧
     generateCodes (Node.mk 0 2 (Node.mk 0 1 Node.null Node.null)
        (Node.mk 97 1 Node.null Node.null)) [] CodeMap.empty 97 = some [true] ∧
     kraftSum (generateCodes (Node.mk 0 2 (Node.mk 0 1 Node.null Node.null)
        (Node.mk 97 1 Node.null Node.null)) [] CodeMap.empty) [0, 97] = 1 / 2) ∧
    ∀ (pq : PriorityQueue) (o : MapOrder) (text : List Byte), (0 : Byte) ∈ text →
      ∃ t, buildHuffmanTree pq o text = Except.ok t ∧
        generateCodes t [] CodeMap.empty 0 = none := by
  refine ⟨⟨rfl, rfl, rfl, ?_⟩, ?_⟩
  · have hd : ([0, 97] : List Byte).dedup = [0, 97] := by decide
    have h0 : generateCodes (Node.mk 0 2 (Node.mk 0 1 Node.null Node.null)
        (Node.mk 97 1 Node.null Node.null)) [] CodeMap.empty 0 = none := rfl
    have h1 : generateCodes (Node.mk 0 2 (Node.mk 0 1 Node.null Node.null)
        (Node.mk 97 1 Node.null Node.null)) [] CodeMap.empty 97 = some [true] := rfl
    simp only [kraftSum, hd, List.map_cons, List.map_nil, h0, h1, List.sum_cons,
      List.sum_nil, List.length_singleton]
    norm_num
  · intro pq o text h0
    obtain ⟨t, ht, -, -, -⟩ := build_spec pq o text (List.ne_nil_of_mem h0)
    exact ⟨t, ht, by rw [generateCodes_zero]; rfl⟩

/-- C13 (the code falls short of the claim).  For the text `\0 a` the leaf of the
character `\0` gets no code and `encodeText` throws.  For every text that holds the
character `\0` the tree has a leaf for it, `generateCodes` records no code for that
leaf, and the lookup `code_map.at` of `encodeText` throws. -/
theorem C13_zero_byte_leaf_has_no_code :
    (buildHuffmanTree sortedQueue insertionOrder [0, 97] =
      Except.ok (Node.mk 0 2 (Node.mk 0 1 Node.null Node.null)
        (Node.mk 97 1 Node.null Node.null)) ∧
     (Node.mk 0 2 (Node.mk 0 1 Node.null Node.null) (Node.mk 97 1 Node.null Node.null)).leaves
        = [(0, 1), (97, 1)] ∧
     generateCodes (Node.mk 0 2 (Node.mk 0 1 Node.null Node.null)
        (Node.mk 97 1 Node.null Node.null)) [] CodeMap.empty 0 = none ∧
     encodeText [0, 97] (generateCodes (Node.mk 0 2 (Node.mk 0 1 Node.null Node.null)
        (Node.mk 97 1 Node.null Node.null)) [] CodeMap.empty)
        = Except.error Fault.outOfRange) ∧
    ∀ (pq : PriorityQueue) (o : MapOrder) (text : List Byte), (0 : Byte) ∈ text →
      ∃ t, buildHuffmanTree pq o text = Except.ok t ∧
        (0, text.count 0) ∈ t.leaves ∧
        generateCodes t [] CodeMap.empty 0 = none ∧
        encodeText text (generateCodes t [] CodeMap.empty)
          = Except.error Fault.outOfRange := by
  refine ⟨⟨rfl, rfl, rfl, rfl⟩, ?_⟩
  intro pq o text h0
  obtain ⟨t, ht, -, -, hl⟩ := build_spec pq o text (List.ne_nil_of_mem h0)
  have hz : generateCodes t [] CodeMap.empty 0 = none := by rw [generateCodes_zero]; rfl
  exact ⟨t, ht, hl.symm.subset ((mem_freq_map text 0 _).2 ⟨h0, rfl⟩), hz,
    encodeText_missing text _ 0 h0 hz⟩

/-- C14.  For every tree whose root has children, for every code map that sends the
character of each leaf to the path of the leaf from the root (`0` for a step to the
left, `1` for a step to the right), and for every text over the characters of the
leaves: `encodeText` returns and `decodeText` returns the text for its result.  The
trees whose nodes all have no child or two and whose leaves carry pairwise
different characters are among them. -/
theorem C14_decode_undoes_encode (T : Node) (codes : CodeMap) (text : List Byte)
    (hroot : T.isLeaf = false)
    (hcodes : ∀ (path : List Bool) (c : Byte) (f : Nat),
      T.walk path = Node.mk c f Node.null Node.null → codes c = some path)
    (htext : ∀ c ∈ text, c ∈ T.leaves.map Prod.fst) :
    ∃ bits, encodeText text codes = Except.ok bits ∧ decodeText bits T = Except.ok text := by
  obtain ⟨bits, hb, hd⟩ := decode_encode T codes hroot text [] (by
    intro c hc
    obtain ⟨⟨c1, f⟩, hmem, rfl⟩ := List.mem_map.1 (htext c hc)
    obtain ⟨p, hp⟩ := Node.mem_leaves_walk T c1 f hmem
    exact ⟨p, f, hcodes p c1 f hp, hp⟩)
  exact ⟨bits, hb, by simp [decodeText, hd]⟩

/-- C14 at the full tree with the codes `a = 0`, `b = 10`, `c = 11`, the code map
`generateCodes` derives from it, and the text `acba`. -/
theorem C14_decode_undoes_encode_witness :
    (Node.mk 0 3 (Node.mk 97 1 Node.null Node.null)
      (Node.mk 0 2 (Node.mk 98 1 Node.null Node.null)
        (Node.mk 99 1 Node.null Node.null))).isFull = true ∧
    ∃ bits, encodeText [97, 99, 98, 97]
        (generateCodes (Node.mk 0 3 (Node.mk 97 1 Node.null Node.null)
          (Node.mk 0 2 (Node.mk 98 1 Node.null Node.null) (Node.mk 99 1 Node.null Node.null)))
          [] CodeMap.empty) = Except.ok bits ∧
      decodeText bits (Node.mk 0 3 (Node.mk 97 1 Node.null Node.null)
          (Node.mk 0 2 (Node.mk 98 1 Node.null Node.null) (Node.mk 99 1 Node.null Node.null)))
        = Except.ok [97, 99, 98, 97] :=
  ⟨rfl, C14_decode_undoes_encode
    (Node.mk 0 3 (Node.mk 97 1 Node.null Node.null)
      (Node.mk 0 2 (Node.mk 98 1 Node.null Node.null) (Node.mk 99 1 Node.null Node.null)))
    _ [97, 99, 98, 97] rfl
    (fun path c f h => by
      have hH : (Node.mk 0 3 (Node.mk 97 1 Node.null Node.null)
          (Node.mk 0 2 (Node.mk 98 1 Node.null Node.null)
            (Node.mk 99 1 Node.null Node.null))).Huff :=
        Node.Huff.node (Node.Huff.leaf 97 1)
          (Node.Huff.node (Node.Huff.leaf 98 1) (Node.Huff.leaf 99 1))
      have := generateCodes_walk hH [] CodeMap.empty
        (show ([97, 98, 99] : List Byte).Nodup by decide)
        (show ∀ c ∈ ([97, 98, 99] : List Byte), c ≠ 0 by simp) path c f h
      simpa using this)
    (show ∀ c ∈ ([97, 99, 98, 97] : List Byte), c ∈ ([97, 98, 99] : List Byte) by simp)⟩

/-- C16.  For every non-empty text both programs build the same tree, every node of
it has either no child or both a left and a right child, and the nodes that have
children are one fewer than the leaves. -/
theorem C16_full_binary_tree (pq : PriorityQueue) (o : MapOrder) (text : List Byte)
    (hne : text ≠ []) :
    ∃ t, buildHuffmanTree pq o text = Except.ok t ∧ Demo.huffmanTree pq o text = Except.ok t ∧
      t.isNull = false ∧ t.isFull = true ∧ t.internalCount + 1 = t.leaves.length := by
  obtain ⟨t, ht, htd, hH, -⟩ := build_spec pq o text hne
  exact ⟨t, ht, htd, hH.isNull, hH.isFull, hH.internalCount⟩

/-- C16 at the text `abracadabra`. -/
theorem C16_full_binary_tree_witness :
    ∃ t, buildHuffmanTree sortedQueue insertionOrder
        [97, 98, 114, 97, 99, 97, 100, 97, 98, 114, 97] = Except.ok t ∧
      Demo.huffmanTree sortedQueue insertionOrder
        [97, 98, 114, 97, 99, 97, 100, 97, 98, 114, 97] = Except.ok t ∧
      t.isNull = false ∧ t.isFull = true ∧ t.internalCount + 1 = t.leaves.length :=
  C16_full_binary_tree sortedQueue insertionOrder
    [97, 98, 114, 97, 99, 97, 100, 97, 98, 114, 97] (by decide)

/-- C18.  For every bit string `e`, of any length, `removePadding` returns `e` for
`padEncodedText e`. -/
theorem C18_padding_is_removable (e : List Bool) :
    removePadding (padEncodedText e) = Except.ok e :=
  removePadding_padEncodedText e

/-- C19.  For every bit string `e` the length of `padEncodedText e` is a multiple of
8, and the 8 bits of every byte of `getByteArray (padEncodedText e)`, most
significant first, put one after the other, are `padEncodedText e`. -/
theorem C19_byte_packing_loses_no_bit (e : List Bool) :
    (padEncodedText e).length % 8 = 0 ∧
    bitString (getByteArray (padEncodedText e)) = padEncodedText e :=
  ⟨padEncodedText_length_mod e, bitString_getByteArray _ (padEncodedText_length_mod e)⟩

/-- C20.  For every tree whose root has children and whose nodes all have no child
or two, and for every bit string, `decodeText` returns: it never reads a field of
the null pointer.  The tree `buildHuffmanTree` returns for a text with at least two
distinct characters is such a tree. -/
theorem C20_decode_never_follows_a_missing_child (T : Node) (bits : List Bool)
    (hn : T.isNull = false) (hroot : T.isLeaf = false) (hfull : T.isFull = true) :
    (∃ out, decodeText bits T = Except.ok out) ∧
    ∀ (pq : PriorityQueue) (o : MapOrder) (text : List Byte),
      (∃ a ∈ text, ∃ b ∈ text, a ≠ b) →
      ∃ t, buildHuffmanTree pq o text = Except.ok t ∧
        t.isNull = false ∧ t.isLeaf = false ∧ t.isFull = true ∧
        ∃ out, decodeText bits t = Except.ok out := by
  refine ⟨decodeText_total T hn hroot hfull bits, ?_⟩
  intro pq o text h2
  obtain ⟨a, ha, -⟩ := id h2
  obtain ⟨t, ht, -, hH, hl⟩ := build_spec pq o text (List.ne_nil_of_mem ha)
  have hleaf := build_isLeaf_false t text hH hl h2
  exact ⟨t, ht, hH.isNull, hleaf, hH.isFull, decodeText_total t hH.isNull hleaf hH.isFull bits⟩

/-- C20 at the tree with the leaves `a`, `b`, `c` and the bits `1 0 1`, which stop
in the middle of a code. -/
theorem C20_decode_never_follows_a_missing_child_witness :
    ∃ out, decodeText [true, false, true] (Node.mk 0 3 (Node.mk 97 1 Node.null Node.null)
      (Node.mk 0 2 (Node.mk 98 1 Node.null Node.null) (Node.mk 99 1 Node.null Node.null)))
        = Except.ok out :=
  (C20_decode_never_follows_a_missing_child
    (Node.mk 0 3 (Node.mk 97 1 Node.null Node.null)
      (Node.mk 0 2 (Node.mk 98 1 Node.null Node.null) (Node.mk 99 1 Node.null Node.null)))
    [true, false, true] rfl rfl rfl).1

/-! # Further properties -/

/-- The round trip of `main` for the texts the programs handle: for every text with
at least two distinct characters, none of them `\0`, the content of `output.txt` is
the content of `input.txt`. -/
theorem X1_round_trip (pq : PriorityQueue) (o : MapOrder) (text : List Byte)
    (h2 : ∃ a ∈ text, ∃ b ∈ text, a ≠ b) (h0 : (0 : Byte) ∉ text) :
    main pq o text = Except.ok text :=
  main_roundtrip pq o text h2 h0

/-- The round trip of `main` at the text `abracadabra`. -/
theorem X1_round_trip_witness :
    main sortedQueue insertionOrder [97, 98, 114, 97, 99, 97, 100, 97, 98, 114, 97]
      = Except.ok [97, 98, 114, 97, 99, 97, 100, 97, 98, 114, 97] :=
  X1_round_trip sortedQueue insertionOrder [97, 98, 114, 97, 99, 97, 100, 97, 98, 114, 97]
    ⟨97, by decide, 98, by decide, by decide⟩ (by decide)

/-- The Kraft equality for the texts the program handles: for every non-empty text
without the character `\0` the Kraft sum of the code table over the distinct
characters of the text is exactly `1`. -/
theorem X2_kraft_equality (pq : PriorityQueue) (o : MapOrder) (text : List Byte)
    (hne : text ≠ []) (h0 : (0 : Byte) ∉ text) :
    ∃ t, buildHuffmanTree pq o text = Except.ok t ∧
      kraftSum (generateCodes t [] CodeMap.empty) text = 1 :=
  kraft_equality pq o text hne h0

/-- The Kraft equality at the text `abracadabra`. -/
theorem X2_kraft_equality_witness :
    ∃ t, buildHuffmanTree sortedQueue insertionOrder
        [97, 98, 114, 97, 99, 97, 100, 97, 98, 114, 97] = Except.ok t ∧
      kraftSum (generateCodes t [] CodeMap.empty)
        [97, 98, 114, 97, 99, 97, 100, 97, 98, 114, 97] = 1 :=
  X2_kraft_equality sortedQueue insertionOrder
    [97, 98, 114, 97, 99, 97, 100, 97, 98, 114, 97] (by decide) (by decide)

/-- The code table for the texts the program handles: for every non-empty text
without the character `\0`, `generateCodes` records a code for a character exactly
when the code is the path of a leaf carrying the character, every character of the
text has a code, and `encodeText` returns. -/
theorem X3_code_table_is_the_leaf_paths (pq : PriorityQueue) (o : MapOrder)
    (text : List Byte) (hne : text ≠ []) (h0 : (0 : Byte) ∉ text) :
    ∃ t, buildHuffmanTree pq o text = Except.ok t ∧
      (∀ c code, generateCodes t [] CodeMap.empty c = some code ↔
        ∃ f, t.walk code = Node.mk c f Node.null Node.null) ∧
      (∀ c ∈ text, ∃ code, generateCodes t [] CodeMap.empty c = some code) ∧
      ∃ e, encodeText text (generateCodes t [] CodeMap.empty) = Except.ok e := by
  obtain ⟨t, e, ht, hH, hl, he, -⟩ := compressFile_total pq o text hne h0
  have hnd : (t.leaves.map Prod.fst).Nodup :=
    (hl.map Prod.fst).nodup_iff.2 (freq_map_nodup text)
  have hz : ∀ c ∈ t.leaves.map Prod.fst, c ≠ 0 := by
    intro c hc hc0
    obtain ⟨⟨c1, n⟩, hmem, rfl⟩ := List.mem_map.1 ((hl.map Prod.fst).subset hc)
    exact h0 (hc0 ▸ ((mem_freq_map text c1 n).1 hmem).1)
  refine ⟨t, ht, ?_, encodeText_ok text _ e he, e, he⟩
  intro c code
  constructor
  · intro h
    rcases generateCodes_some hH _ _ _ _ h with h1 | ⟨path, f, hp, hw⟩
    · simp [CodeMap.empty] at h1
    · exact ⟨f, by simpa [hp] using hw⟩
  · rintro ⟨f, hw⟩
    have := generateCodes_walk hH [] CodeMap.empty hnd hz code c f hw
    simpa using this

/-- The code table at the text `abracadabra`. -/
theorem X3_code_table_is_the_leaf_paths_witness :
    ∃ t, buildHuffmanTree sortedQueue insertionOrder
        [97, 98, 114, 97, 99, 97, 100, 97, 98, 114, 97] = Except.ok t ∧
      (∀ c code, generateCodes t [] CodeMap.empty c = some code ↔
        ∃ f, t.walk code = Node.mk c f Node.null Node.null) ∧
      (∀ c ∈ ([97, 98, 114, 97, 99, 97, 100, 97, 98, 114, 97] : List Byte),
        ∃ code, generateCodes t [] CodeMap.empty c = some code) ∧
      ∃ e, encodeText [97, 98, 114, 97, 99, 97, 100, 97, 98, 114, 97]
        (generateCodes t [] CodeMap.empty) = Except.ok e :=
  X3_code_table_is_the_leaf_paths sortedQueue insertionOrder
    [97, 98, 114, 97, 99, 97, 100, 97, 98, 114, 97] (by decide) (by decide)

end Huffman
